import Mathlib

/-!
# Holder aggregation API (`pages/api/holders.js`)

A shallow embedding of the request handler of `pages/api/holders.js` and the
properties of its normaliser, its paged fetch loop, its fold over ownership
records and its final ranking, followed by `extractContractAddress` of
`pages/index.js`.

Modelling conventions.

* A JavaScript plain object used as a dictionary is a list of key/value pairs in
  property-creation order (`JSObject`). `Object.entries` lists the keys that are
  array indices first, in ascending numeric order, and then the remaining string
  keys in creation order (`JSObject.entries`). Only own properties are embedded:
  for a key that names a member inherited from `Object.prototype` (`toString`,
  `constructor`, `__proto__`, ...) the source reads and writes the inherited member,
  which the embedding does not follow.
* `Array.prototype.sort` is stable; with the comparator `(a, b) => b[1] - a[1]`
  it is embedded as a stable insertion sort on the relation `b[1] ≤ a[1]`.
* Token balances are JSON integers (`Int`); an absent or null balance is `none`.
  Sums are exact integer sums; the double additions of the source agree with them
  while every sum stays in the range from `-2^53` to `2^53`.
* `fetch` is a function from the request parameters that vary (the contract
  address and the optional `pageKey`) to a response. The `while (true)` loop is
  given a fuel: the number of pages it may fetch for one collection. A run whose
  loop is still going when the fuel is spent has no response.
* `String.prototype.toLowerCase` (Unicode case mapping) is a parameter of the
  normaliser; `String.prototype.trim` is defined on the white space and line
  terminator code points of the language.
-/

namespace HoldersApi

/-! ## Strings -/

/-- White space and line terminators, the code points `String.prototype.trim` strips. -/
def isJsWhiteSpace (c : Char) : Bool :=
  decide (c.toNat ∈ [0x9, 0xA, 0xB, 0xC, 0xD, 0x20, 0xA0, 0x1680, 0x2028, 0x2029,
    0x202F, 0x205F, 0x3000, 0xFEFF]) || (decide (0x2000 ≤ c.toNat) && decide (c.toNat ≤ 0x200A))

/-- `String.prototype.trim`: strip white space from both ends. -/
def trim (s : String) : String :=
  ⟨(s.data.dropWhile isJsWhiteSpace).rdropWhile isJsWhiteSpace⟩

/-- ASCII lower-casing, one admissible instance of `toLowerCase` (it agrees with the
built-in on strings of ASCII characters such as hexadecimal contract addresses). -/
def asciiLowerCase (s : String) : String :=
  ⟨s.data.map Char.toLower⟩

/-! ## Plain objects used as dictionaries -/

/-- A plain object: its own string-keyed properties in creation order. -/
abbrev JSObject (α : Type) := List (String × α)

/-- Numeric value of a string of decimal digits. -/
def digitsValue (cs : List Char) : Nat :=
  cs.foldl (fun n c => 10 * n + (c.toNat - 48)) 0

/-- A property key is an array index when it is the canonical decimal form of an
integer below `2^32 - 1`. -/
def isArrayIndex (k : String) : Bool :=
  !k.data.isEmpty && k.data.all Char.isDigit &&
    (k.data.head? != some '0' || k.data.length == 1) &&
    decide (digitsValue k.data < 4294967295)

namespace JSObject

/-- Property read `o[k]` among the own properties; `none` stands for `undefined`. A key
that names a member of `Object.prototype` (`toString`, `constructor`, `__proto__`, ...) and
is not an own property reads as the inherited member in the source; such keys lie outside
this embedding. -/
def get {α : Type} (o : JSObject α) (k : String) : Option α :=
  match o with
  | [] => none
  | (k', v) :: rest => if k' = k then some v else get rest k

/-- Property write `o[k] = v` of an own property: an existing key keeps its position, a new
key goes last. In the source a write to the key `__proto__` creates no own property; that
key lies outside this embedding. -/
def set {α : Type} (o : JSObject α) (k : String) (v : α) : JSObject α :=
  match o with
  | [] => [(k, v)]
  | (k', v') :: rest => if k' = k then (k', v) :: rest else (k', v') :: set rest k v

/-- Own keys in creation order. -/
def keys {α : Type} (o : JSObject α) : List String :=
  o.map Prod.fst

/-- `Object.entries(o)`: array-index keys ascending, then the other keys in creation order. -/
def entries {α : Type} (o : JSObject α) : List (String × α) :=
  (o.filter (fun p => isArrayIndex p.1)).insertionSort
      (fun a b => digitsValue a.1.data ≤ digitsValue b.1.data)
    ++ o.filter (fun p => !isArrayIndex p.1)

end JSObject

/-! ## The provider boundary -/

/-- One `(tokenId, balance)` pair of an ownership record. -/
structure TokenBalance where
  tokenId : String
  balance : Option Int
deriving DecidableEq, Repr

/-- One element of `ownerAddresses` on a provider page. -/
structure OwnerEntry where
  ownerAddress : Option String
  tokenBalances : Option (List TokenBalance)
deriving DecidableEq, Repr

/-- The JSON body of a successful page fetch. -/
structure PageData where
  ownerAddresses : Option (List OwnerEntry)
  pageKey : Option String
deriving DecidableEq, Repr

/-- The query parameters of one fetch that vary between calls. -/
structure FetchRequest where
  contractAddress : String
  pageKey : Option String
deriving DecidableEq, Repr

/-- What `fetch` resolves to: `resp.ok` with its JSON, or a failure status and text. -/
inductive FetchResponse where
  | ok (data : PageData)
  | notOk (status : Nat) (text : String)
deriving DecidableEq, Repr

/-- The external ownership-lookup service. -/
abbrev Provider := FetchRequest → FetchResponse

/-- Truthiness of a value that is a string, null or undefined. -/
def truthy (v : Option String) : Bool :=
  match v with
  | none => false
  | some s => decide (s ≠ "")

/-- Lines 33-40: `pageKey` enters the query only when it is truthy. -/
def mkRequest (contract : String) (pageKey : Option String) : FetchRequest :=
  { contractAddress := contract, pageKey := if truthy pageKey then pageKey else none }

/-! ## Request and response of the handler -/

/-- One element of the result list. -/
structure WalletTotal where
  wallet : String
  total : Int
  collectionsOwned : String
  breakdown : JSObject Int
deriving DecidableEq, Repr

/-- The JSON body the handler sends; a field that is `none` is not present. -/
structure ResponseBody where
  error : Option String
  result : Option (List WalletTotal)
  contracts : Option (List String)
  totalContracts : Option Nat
deriving DecidableEq, Repr

/-- Status code and body sent through `res.status(..).json(..)`. -/
structure HandlerResponse where
  status : Nat
  body : ResponseBody
deriving DecidableEq, Repr

/-- The request: `contracts` is `none` when `req.body.contracts` is not an array;
an array element is a string or null. -/
structure Request where
  method : String
  contracts : Option (List (Option String))
deriving DecidableEq, Repr

/-- A body with only the `error` field. -/
def errorBody (msg : String) : ResponseBody :=
  { error := some msg, result := none, contracts := none, totalContracts := none }

/-- Lines 45-47: the message of the early return on a failed fetch. -/
def alchemyError (contract : String) (status : Nat) (text : String) : String :=
  "Alchemy error for contract " ++ contract ++ ": " ++ toString status ++ " " ++ text

/-! ## The normaliser (lines 19-22) -/

/-- `Array.from(new Set(xs))`: every value once, in order of first insertion. -/
def setFromArray (xs : List String) : List String :=
  xs.foldl (fun seen x => if x ∈ seen then seen else seen ++ [x]) []

/-- Lines 20-22: trim and lower-case every entry, deduplicate, drop the empty string. -/
def uniqueContracts (toLowerCase : String → String) (contracts : List (Option String)) :
    List String :=
  (setFromArray (contracts.map (fun c => toLowerCase (trim (c.getD ""))))).filter
    (fun c => c ≠ "")

/-! ## The fold over ownership records (lines 51-74) -/

/-- The two running maps of lines 24-28. -/
structure AggState where
  combinedTotals : JSObject Int
  collectionBreakdown : JSObject (JSObject Int)
deriving DecidableEq, Repr

/-- Lines 25 and 28: both maps start empty. -/
def AggState.empty : AggState :=
  { combinedTotals := [], collectionBreakdown := [] }

/-- Lines 57-61: sum of `Number(tb.balance || 0)` over `ownerEntry.tokenBalances || []`.
The sum is the exact integer sum; the source adds doubles, which give the same value as
long as no partial sum leaves the range from `-2^53` to `2^53`. -/
def sumForThisContract (ownerEntry : OwnerEntry) : Int :=
  (ownerEntry.tokenBalances.getD []).foldl (fun sum tb => sum + tb.balance.getD 0) 0

/-- Lines 52-74, the body of the loop over `ownerAddresses`. The total of line 65 is an
exact integer addition and both maps hold own properties only: the embedding follows the
source for totals in the range from `-2^53` to `2^53` and for wallet and contract keys
that name no member of `Object.prototype`. -/
def foldOwnerEntry (contract : String) (st : AggState) (ownerEntry : OwnerEntry) : AggState :=
  if truthy ownerEntry.ownerAddress then
    let ownerAddr := ownerEntry.ownerAddress.getD ""
    if 0 < sumForThisContract ownerEntry then
      let breakdown :=
        if (st.collectionBreakdown.get ownerAddr).isNone then
          st.collectionBreakdown.set ownerAddr []
        else st.collectionBreakdown
      { combinedTotals :=
          st.combinedTotals.set ownerAddr
            ((st.combinedTotals.get ownerAddr).getD 0 + sumForThisContract ownerEntry),
        collectionBreakdown :=
          breakdown.set ownerAddr
            (((breakdown.get ownerAddr).getD []).set contract (sumForThisContract ownerEntry)) }
    else st
  else st

/-- Lines 52-74 for one page: fold every element of `data.ownerAddresses || []`. -/
def foldPage (contract : String) (st : AggState) (data : PageData) : AggState :=
  (data.ownerAddresses.getD []).foldl (foldOwnerEntry contract) st

/-! ## The fetch loops (lines 30-79) -/

/-- How a loop ends: it runs to its end, the handler returns from inside it, or it is
still running when the fuel is spent. -/
inductive Outcome where
  | completed (st : AggState)
  | returned (resp : HandlerResponse)
  | pending
deriving DecidableEq, Repr

/-- The fetches issued, in order, and how the loop ended. -/
structure Run where
  fetches : List FetchRequest
  outcome : Outcome
deriving DecidableEq, Repr

/-- Lines 32-78: the `while (true)` loop for one contract, from the current `pageKey`. -/
def pageLoop (provider : Provider) (contract : String) :
    Nat → Option String → AggState → Run
  | 0, _, _ => { fetches := [], outcome := Outcome.pending }
  | fuel + 1, pageKey, st =>
    match provider (mkRequest contract pageKey) with
    | FetchResponse.notOk status text =>
      { fetches := [mkRequest contract pageKey],
        outcome := Outcome.returned
          { status := 500, body := errorBody (alchemyError contract status text) } }
    | FetchResponse.ok data =>
      if truthy data.pageKey then
        let rest := pageLoop provider contract fuel data.pageKey (foldPage contract st data)
        { fetches := mkRequest contract pageKey :: rest.fetches, outcome := rest.outcome }
      else
        { fetches := [mkRequest contract pageKey],
          outcome := Outcome.completed (foldPage contract st data) }

/-- Lines 30-79: the loop over `uniqueContracts`, each starting with `pageKey = null`. -/
def contractsLoop (provider : Provider) (fuel : Nat) : List String → AggState → Run
  | [], st => { fetches := [], outcome := Outcome.completed st }
  | contract :: rest, st =>
    let first := pageLoop provider contract fuel none st
    match first.outcome with
    | Outcome.completed st' =>
      let others := contractsLoop provider fuel rest st'
      { fetches := first.fetches ++ others.fetches, outcome := others.outcome }
    | Outcome.returned resp => { fetches := first.fetches, outcome := Outcome.returned resp }
    | Outcome.pending => { fetches := first.fetches, outcome := Outcome.pending }

/-! ## Ranking (lines 81-100) -/

/-- Lines 84-93: the entry built for one `[wallet, total]` pair. -/
def toWalletTotal (st : AggState) (contractCount : Nat) (p : String × Int) : WalletTotal :=
  let breakdown := (st.collectionBreakdown.get p.1).getD []
  { wallet := p.1,
    total := p.2,
    collectionsOwned := toString breakdown.keys.length ++ "/" ++ toString contractCount,
    breakdown := breakdown }

/-- Lines 82-94: entries of `combinedTotals`, sorted descending by total, then mapped. -/
def sorted (st : AggState) (contractCount : Nat) : List WalletTotal :=
  ((JSObject.entries st.combinedTotals).insertionSort (fun a b => b.2 ≤ a.2)).map
    (toWalletTotal st contractCount)

/-- Lines 96-100: the success response. -/
def successResponse (st : AggState) (contracts : List String) : HandlerResponse :=
  { status := 200,
    body := { error := none,
              result := some (sorted st contracts.length),
              contracts := some contracts,
              totalContracts := some contracts.length } }

/-! ## The handler -/

/-- The fetches a call of the handler issued and the response it sent, if it sent one. -/
structure HandlerRun where
  fetches : List FetchRequest
  response : Option HandlerResponse
deriving DecidableEq, Repr

/-- The request handler of `pages/api/holders.js`. -/
def handler (toLowerCase : String → String) (provider : Provider) (fuel : Nat)
    (req : Request) : HandlerRun :=
  if req.method ≠ "POST" then
    { fetches := [],
      response := some { status := 405, body := errorBody "Method Not Allowed" } }
  else
    match req.contracts with
    | none =>
      { fetches := [],
        response := some
          { status := 400, body := errorBody "Must include a non‐empty array `contracts`." } }
    | some [] =>
      { fetches := [],
        response := some
          { status := 400, body := errorBody "Must include a non‐empty array `contracts`." } }
    | some (c :: cs) =>
      let contracts := uniqueContracts toLowerCase (c :: cs)
      let run := contractsLoop provider fuel contracts AggState.empty
      match run.outcome with
      | Outcome.completed st =>
        { fetches := run.fetches, response := some (successResponse st contracts) }
      | Outcome.returned resp => { fetches := run.fetches, response := some resp }
      | Outcome.pending => { fetches := run.fetches, response := none }

/-! ## Reference notions the properties are stated with -/

/-- The pages of one collection: follow the returned cursors from `pageKey` while the
fetch succeeds and a cursor comes back, for at most `fuel` pages. -/
def pageChain (provider : Provider) (contract : String) : Nat → Option String → List PageData
  | 0, _ => []
  | fuel + 1, pageKey =>
    match provider (mkRequest contract pageKey) with
    | FetchResponse.notOk _ _ => []
    | FetchResponse.ok data =>
      data :: (if truthy data.pageKey then pageChain provider contract fuel data.pageKey else [])

/-- The ownership records of one page, tagged with the collection of the page. -/
def pageRecords (contract : String) (data : PageData) : List (String × OwnerEntry) :=
  (data.ownerAddresses.getD []).map (fun ownerEntry => (contract, ownerEntry))

/-- The ownership records of every page of one collection, in page order. -/
def collectionRecords (provider : Provider) (fuel : Nat) (contract : String) :
    List (String × OwnerEntry) :=
  (pageChain provider contract fuel none).flatMap (pageRecords contract)

/-- Every ownership record of every page of the given collections, in fetch order
(collection order, then page order, then record order), tagged with its collection. -/
def fetchedRecords (provider : Provider) (fuel : Nat) (contracts : List String) :
    List (String × OwnerEntry) :=
  contracts.flatMap (collectionRecords provider fuel)

/-- The wallet a record belongs to: its `ownerAddress` when that is a non-empty string. -/
def recordWallet (ownerEntry : OwnerEntry) : Option String :=
  if truthy ownerEntry.ownerAddress then ownerEntry.ownerAddress else none

/-- Whether a tagged record is a record of `wallet` with a positive balance sum. -/
def contributesTo (wallet : String) (r : String × OwnerEntry) : Bool :=
  decide (recordWallet r.2 = some wallet) && decide (0 < sumForThisContract r.2)

/-- The wallets of the records with a positive balance sum, in fetch order. -/
def contributingWallets (records : List (String × OwnerEntry)) : List String :=
  records.filterMap (fun r =>
    if 0 < sumForThisContract r.2 then recordWallet r.2 else none)

/-- The normalised collection list of a request (empty when `contracts` is not an array). -/
def requestedContracts (toLowerCase : String → String) (req : Request) : List String :=
  uniqueContracts toLowerCase (req.contracts.getD [])

/-- The sum of the positive balance sums of the records of `wallet`. -/
def totalContribution (wallet : String) (records : List (String × OwnerEntry)) : Int :=
  ((records.filter (contributesTo wallet)).map (fun r => sumForThisContract r.2)).sum

/-- The balance sum of the last record of `wallet` in `contract` with a positive balance
sum, if there is one. -/
def lastContribution (wallet contract : String) (records : List (String × OwnerEntry)) :
    Option Int :=
  ((records.filter (fun r => decide (r.1 = contract) && contributesTo wallet r)).map
    (fun r => sumForThisContract r.2)).getLast?

/-- Lines 30-74 seen as one fold over the tagged records. -/
def foldRecords (st : AggState) (records : List (String × OwnerEntry)) : AggState :=
  records.foldl (fun st r => foldOwnerEntry r.1 st r.2) st

/-- Whether an address is written with the `0x` marker in front. -/
def startsWith0x (w : String) : Bool :=
  match w.data with
  | '0' :: 'x' :: _ => true
  | _ => false

/-- Whether the provider answers a request with a success. -/
def succeeds (provider : Provider) (rq : FetchRequest) : Prop :=
  ∃ data, provider rq = FetchResponse.ok data

/-! ## A small provider used to instantiate the statements -/

/-- An ownership record of `wallet` with the given balances. -/
def exampleEntry (wallet : String) (balances : List Int) : OwnerEntry :=
  { ownerAddress := some wallet,
    tokenBalances := some (balances.map (fun b => { tokenId := "1", balance := some b })) }

/-- Collection `0xaa` has two pages, `0xbb` one, every other collection fails with 404. -/
def exampleProvider : Provider := fun rq =>
  if rq.contractAddress = "0xaa" then
    if rq.pageKey = none then
      FetchResponse.ok
        { ownerAddresses := some [exampleEntry "0xw1" [2, 1], exampleEntry "0xw2" [0],
            exampleEntry "0xw3" [1]],
          pageKey := some "p2" }
    else
      FetchResponse.ok
        { ownerAddresses := some [exampleEntry "0xw1" [5], exampleEntry "0xw2" [4]],
          pageKey := none }
  else if rq.contractAddress = "0xbb" then
    FetchResponse.ok
      { ownerAddresses := some [exampleEntry "0xw3" [1], exampleEntry "0xw2" [4]],
        pageKey := none }
  else FetchResponse.notOk 404 "not found"

/-- A request for the two collections of the example, written with case and space variants. -/
def exampleRequest : Request :=
  { method := "POST", contracts := some [some " 0xAA", some "0xaa ", none, some "0xBb"] }

/-- The response to `exampleRequest`. -/
def exampleResponse : HandlerResponse :=
  { status := 200,
    body :=
      { error := none,
        result := some
          [{ wallet := "0xw1", total := 8, collectionsOwned := "1/2",
             breakdown := [("0xaa", 5)] },
           { wallet := "0xw2", total := 8, collectionsOwned := "2/2",
             breakdown := [("0xaa", 4), ("0xbb", 4)] },
           { wallet := "0xw3", total := 2, collectionsOwned := "2/2",
             breakdown := [("0xaa", 1), ("0xbb", 1)] }],
        contracts := some ["0xaa", "0xbb"],
        totalContracts := some 2 } }

/-- A request whose second collection of three fails at the provider. -/
def failingRequest : Request :=
  { method := "POST", contracts := some [some "0xaa", some "0xcc", some "0xbb"] }

/-- A provider without failures that agrees with `exampleProvider` where that succeeds. -/
def repairedProvider : Provider := fun rq =>
  match exampleProvider rq with
  | FetchResponse.ok data => FetchResponse.ok data
  | FetchResponse.notOk _ _ => FetchResponse.ok { ownerAddresses := none, pageKey := none }

/-! ## The normaliser as specified -/

/-- The trimmed, lower-cased form of one array element (`(c || "").trim().toLowerCase()`). -/
def normalForm (toLowerCase : String → String) (c : Option String) : String :=
  toLowerCase (trim (c.getD ""))

/-- Deduplicate a list keeping the first occurrence of every value. -/
def dedupKeepFirst : List String → List String
  | [] => []
  | x :: xs => x :: (dedupKeepFirst xs).filter (fun y => y ≠ x)

/-- The pipeline in the words of the specification: trim, lower-case, drop empty
results, then deduplicate preserving first-occurrence order. -/
def specNormaliser (toLowerCase : String → String) (contracts : List (Option String)) :
    List String :=
  dedupKeepFirst ((contracts.map (fun c => toLowerCase (trim (c.getD "")))).filter
    (fun c => c ≠ ""))

/-! ## Scenarios of the specification -/

/-- Scenario D: case and white-space variants of one identifier. -/
def scenarioDContracts : List (Option String) :=
  [some "0xABC", some "0xabc", some " 0xabc "]

/-! ## Pagination chains -/

/-- Whether following the returned cursors of `contract` from `pageKey` reaches, within
`fuel` successful pages, a page whose cursor is absent or empty. -/
def chainEnds (provider : Provider) (contract : String) : Nat → Option String → Bool
  | 0, _ => false
  | fuel + 1, pageKey =>
    match provider (mkRequest contract pageKey) with
    | FetchResponse.notOk _ _ => false
    | FetchResponse.ok data =>
      if truthy data.pageKey then chainEnds provider contract fuel data.pageKey else true

/-- A provider whose every page is empty and carries a further cursor. -/
def endlessProvider : Provider := fun _ =>
  FetchResponse.ok { ownerAddresses := some [], pageKey := some "next" }

/-- How the cursor protocol links a fetch `a` to the fetch `b` issued right after it: `a`
succeeded; when its page returned a cursor, `b` asks the same collection with exactly
that cursor; when the cursor was absent or empty, `b` asks the collection that follows
in `contracts`, with no cursor. -/
def followsInProtocol (provider : Provider) (contracts : List String)
    (a b : FetchRequest) : Prop :=
  ∃ data, provider a = FetchResponse.ok data ∧
    if truthy data.pageKey then
      b = { contractAddress := a.contractAddress, pageKey := data.pageKey }
    else
      b.pageKey = none ∧
        ∃ before after, contracts = before ++ a.contractAddress :: b.contractAddress :: after

/-- Scenario E: every collection has one page, holding one wallet with zero balances. -/
def scenarioEProvider : Provider := fun _ =>
  FetchResponse.ok { ownerAddresses := some [exampleEntry "0xw1" [0, 0]], pageKey := none }

/-! ## Address extraction (`pages/index.js`, lines 31-55)

The three regular expressions are embedded as matchers on lists of characters. Under
the `i` flag a text character matches a pattern character when their canonical forms,
the ASCII upper-casings, are equal (a character outside ASCII never matches an ASCII
pattern character); `String.prototype.match` without the `g` flag returns the leftmost
match. -/

/-- The character class `[a-fA-F0-9]` (the same set with and without the `i` flag). -/
def isHexDigit (c : Char) : Bool :=
  (decide ('a' ≤ c) && decide (c ≤ 'f')) || (decide ('A' ≤ c) && decide (c ≤ 'F')) ||
    (decide ('0' ≤ c) && decide (c ≤ '9'))

/-- The canonical form characters are compared by: upper-cased under the `i` flag. -/
def canonicalize (ignoreCase : Bool) (c : Char) : Char :=
  if ignoreCase then c.toUpper else c

/-- Match a literal at the head of the text; the result is the text after the match. -/
def matchLiteral (ignoreCase : Bool) : List Char → List Char → Option (List Char)
  | [], text => some text
  | _ :: _, [] => none
  | p :: ps, t :: ts =>
    if canonicalize ignoreCase t = canonicalize ignoreCase p then
      matchLiteral ignoreCase ps ts
    else none

/-- Match `[a-fA-F0-9]{n}` at the head of the text: the matched characters and the rest. -/
def matchHexDigits : Nat → List Char → Option (List Char × List Char)
  | 0, text => some ([], text)
  | _ + 1, [] => none
  | n + 1, t :: ts =>
    if isHexDigit t then (matchHexDigits n ts).map (fun r => (t :: r.1, r.2)) else none

/-- Match the group `(0x[a-fA-F0-9]{40})` at the head of the text: the captured
characters and the rest. -/
def matchAddressGroup (ignoreCase : Bool) (text : List Char) :
    Option (List Char × List Char) :=
  match text with
  | c0 :: c1 :: rest =>
    if canonicalize ignoreCase c0 = canonicalize ignoreCase '0' ∧
        canonicalize ignoreCase c1 = canonicalize ignoreCase 'x' then
      (matchHexDigits 40 rest).map (fun r => (c0 :: c1 :: r.1, r.2))
    else none
  | _ => none

/-- Line 36: `/^(0x[a-fA-F0-9]{40})$/`, the group anchored at both ends of the text. -/
def matchDirect (text : List Char) : Option (List Char) :=
  match matchAddressGroup false text with
  | some (captured, []) => some captured
  | _ => none

/-- The pattern `/lit(0x[a-fA-F0-9]{40})/i` tried at the head of the text: the group. -/
def matchUrlAt (lit text : List Char) : Option (List Char) :=
  match matchLiteral true lit text with
  | some rest => (matchAddressGroup true rest).map Prod.fst
  | none => none

/-- Lines 42 and 48: `text.match(/lit(0x[a-fA-F0-9]{40})/i)`, the group of the leftmost
match. -/
def searchUrl (lit : List Char) : List Char → Option (List Char)
  | [] => matchUrlAt lit []
  | t :: ts =>
    match matchUrlAt lit (t :: ts) with
    | some captured => some captured
    | none => searchUrl lit ts

/-- The literal part of the marketplace pattern of line 42. -/
def dclLiteral : List Char := "decentraland.org/marketplace/contracts/".data

/-- The literal part of the explorer pattern of line 48. -/
def polygonscanLiteral : List Char := "polygonscan.com/address/".data

/-- Lines 32-55: `extractContractAddress`; `none` stands for `null`. -/
def extractContractAddress (text : String) : Option String :=
  let trimmedText := (trim text).data
  match matchDirect trimmedText with
  | some directAddressMatch => some ⟨directAddressMatch⟩
  | none =>
    match searchUrl dclLiteral trimmedText with
    | some dclMatch => some ⟨dclMatch⟩
    | none =>
      match searchUrl polygonscanLiteral trimmedText with
      | some polygonscanMatch => some ⟨polygonscanMatch⟩
      | none => none

/-- A text that is exactly `0x` followed by 40 hexadecimal digits. -/
def IsAddress (cs : List Char) : Prop :=
  ∃ hs, cs = '0' :: 'x' :: hs ∧ hs.length = 40 ∧ ∀ h ∈ hs, isHexDigit h = true

/-- The text contains, compared without regard to letter case, the literal followed by
`0x` and 40 hexadecimal digits. -/
def OccursIgnoringCase (lit text : List Char) : Prop :=
  ∃ pre m c1 hs post, text = pre ++ m ++ ('0' :: c1 :: hs) ++ post ∧
    m.map Char.toUpper = lit.map Char.toUpper ∧ c1.toUpper = 'X' ∧
    hs.length = 40 ∧ ∀ h ∈ hs, isHexDigit h = true

/-- An explorer address whose marker letter is written in upper case. -/
def upperMarkerInput : String :=
  "polygonscan.com/address/0X1234567890abcdef1234567890abcdef12345678"

/-- An explorer address whose host and path are written in upper case. -/
def upperHostInput : String :=
  "POLYGONSCAN.COM/ADDRESS/0x1234567890abcdef1234567890abcdef12345678"

/-- A bare address with white space around it. -/
def bareAddressInput : String :=
  "  0x1234567890abcdef1234567890ABCDEF12345678\n"

/-! # Properties -/

/-! ## The normaliser -/

theorem setFromArray_step_nodup (xs seen : List String) (h : seen.Nodup) :
    (xs.foldl (fun seen x => if x ∈ seen then seen else seen ++ [x]) seen).Nodup := by
  induction xs generalizing seen with
  | nil => simpa using h
  | cons x xs ih =>
    simp only [List.foldl_cons]
    apply ih
    by_cases hx : x ∈ seen
    · simpa [hx] using h
    · simp only [hx, if_false]
      exact List.Nodup.append h (List.nodup_singleton x) (by simpa using hx)

theorem setFromArray_step_mem (xs seen : List String) (a : String) :
    a ∈ xs.foldl (fun seen x => if x ∈ seen then seen else seen ++ [x]) seen ↔
      a ∈ seen ∨ a ∈ xs := by
  induction xs generalizing seen with
  | nil => simp
  | cons x xs ih =>
    simp only [List.foldl_cons, ih, List.mem_cons]
    by_cases hx : x ∈ seen
    · simp only [hx, if_true]
      constructor
      · rintro (h | h)
        · exact Or.inl h
        · exact Or.inr (Or.inr h)
      · rintro (h | h | h)
        · exact Or.inl h
        · exact Or.inl (h ▸ hx)
        · exact Or.inr h
    · simp only [hx, if_false, List.mem_append, List.mem_singleton]
      tauto

theorem setFromArray_nodup (xs : List String) : (setFromArray xs).Nodup :=
  setFromArray_step_nodup xs [] List.nodup_nil

theorem mem_setFromArray (xs : List String) (a : String) : a ∈ setFromArray xs ↔ a ∈ xs := by
  simp [setFromArray, setFromArray_step_mem]

theorem mem_uniqueContracts (toLowerCase : String → String) (contracts : List (Option String))
    (a : String) :
    a ∈ uniqueContracts toLowerCase contracts ↔
      a ≠ "" ∧ ∃ c ∈ contracts, toLowerCase (trim (c.getD "")) = a := by
  simp only [uniqueContracts, List.mem_filter, mem_setFromArray, List.mem_map, decide_eq_true_eq]
  tauto

theorem uniqueContracts_nodup (toLowerCase : String → String)
    (contracts : List (Option String)) : (uniqueContracts toLowerCase contracts).Nodup :=
  (setFromArray_nodup _).filter _

theorem dropWhile_rdropWhile_dropWhile (p : Char → Bool) (l : List Char) :
    ((l.dropWhile p).rdropWhile p).dropWhile p = (l.dropWhile p).rdropWhile p := by
  have hd : (l.dropWhile p).dropWhile p = l.dropWhile p := List.dropWhile_idempotent _ _
  obtain ⟨t, ht⟩ := List.rdropWhile_prefix p (l := l.dropWhile p)
  generalize l.dropWhile p = d at hd ht
  generalize d.rdropWhile p = r at ht
  subst ht
  cases r with
  | nil => rfl
  | cons a r =>
    simp only [List.cons_append, List.dropWhile_cons] at hd ⊢
    by_cases ha : p a = true
    · simp only [ha, if_true] at hd
      have hlen := congrArg List.length hd
      have hle := (List.dropWhile_sublist p (l := r ++ t)).length_le
      simp only [List.length_cons] at hlen
      omega
    · simp [ha]

theorem trim_trim (s : String) : trim (trim s) = trim s := by
  simp only [trim, dropWhile_rdropWhile_dropWhile, List.rdropWhile_idempotent]

theorem trim_eq_self_iff (s : String) :
    trim s = s ↔ s.data.dropWhile isJsWhiteSpace = s.data ∧
      s.data.rdropWhile isJsWhiteSpace = s.data := by
  constructor
  · intro h
    have hd : (s.data.dropWhile isJsWhiteSpace).rdropWhile isJsWhiteSpace = s.data :=
      congrArg String.data h
    have h1 : s.data.dropWhile isJsWhiteSpace = s.data := by
      rw [← hd, dropWhile_rdropWhile_dropWhile]
    exact ⟨h1, by rw [h1] at hd; exact hd⟩
  · rintro ⟨h1, h2⟩
    simp only [trim, h1, h2]

theorem toLower_toNat (c : Char) :
    (Char.toLower c).toNat = if 65 ≤ c.toNat ∧ c.toNat ≤ 90 then c.toNat + 32 else c.toNat := by
  have hc : c = Char.ofNat c.toNat := (Char.ofNat_toNat c).symm
  unfold Char.toLower
  by_cases h : 65 ≤ c.toNat ∧ c.toNat ≤ 90
  · simp only [ge_iff_le, h, and_self, if_true]
    obtain ⟨h1, h2⟩ := h
    generalize c.toNat = n at h1 h2
    interval_cases n <;> rfl
  · simp only [ge_iff_le, h, if_false]

theorem toLower_of_not_upper (c : Char) (h : ¬ (65 ≤ c.toNat ∧ c.toNat ≤ 90)) :
    Char.toLower c = c := by
  unfold Char.toLower
  simp only [ge_iff_le, h, if_false]

theorem toLower_toLower (c : Char) : Char.toLower (Char.toLower c) = Char.toLower c := by
  by_cases h : 65 ≤ c.toNat ∧ c.toNat ≤ 90
  · apply toLower_of_not_upper
    rw [toLower_toNat, if_pos h]
    omega
  · rw [toLower_of_not_upper c h, toLower_of_not_upper c h]

theorem isJsWhiteSpace_toLower (c : Char) :
    isJsWhiteSpace (Char.toLower c) = isJsWhiteSpace c := by
  by_cases h : 65 ≤ c.toNat ∧ c.toNat ≤ 90
  · have h2 := toLower_toNat c
    rw [if_pos h] at h2
    unfold isJsWhiteSpace
    rw [h2]
    obtain ⟨h3, h4⟩ := h
    generalize c.toNat = n at h3 h4
    interval_cases n <;> rfl
  · rw [toLower_of_not_upper c h]

theorem asciiLowerCase_idem (s : String) :
    asciiLowerCase (asciiLowerCase s) = asciiLowerCase s := by
  simp only [asciiLowerCase, List.map_map]
  congr 1
  apply List.map_congr_left
  intro c _
  exact toLower_toLower c

theorem asciiLowerCase_trim (s : String) (h : trim s = s) :
    trim (asciiLowerCase s) = asciiLowerCase s := by
  have hcomp : isJsWhiteSpace ∘ Char.toLower = isJsWhiteSpace :=
    funext isJsWhiteSpace_toLower
  rw [trim_eq_self_iff] at h ⊢
  obtain ⟨h1, h2⟩ := h
  simp only [asciiLowerCase]
  constructor
  · rw [List.dropWhile_map, hcomp, h1]
  · rw [List.rdropWhile, ← List.map_reverse, List.dropWhile_map, hcomp, ← List.map_reverse,
      ← List.rdropWhile, h2]

/-! ## Plain objects -/

namespace JSObject

theorem get_set {α : Type} (o : JSObject α) (k k' : String) (v : α) :
    (o.set k v).get k' = if k = k' then some v else o.get k' := by
  induction o with
  | nil => simp only [set, get]
  | cons p o ih =>
    obtain ⟨a, w⟩ := p
    simp only [set]
    by_cases h : a = k
    · subst h
      simp only [if_true, get]
      by_cases h' : a = k' <;> simp [h']
    · simp only [h, if_false, get, ih]
      by_cases h' : a = k'
      · subst h'
        simp [Ne.symm h]
      · simp [h']

theorem keys_set {α : Type} (o : JSObject α) (k : String) (v : α) :
    (o.set k v).keys = if k ∈ o.keys then o.keys else o.keys ++ [k] := by
  induction o with
  | nil => simp [set, keys]
  | cons p o ih =>
    obtain ⟨a, w⟩ := p
    simp only [set]
    by_cases h : a = k
    · subst h
      simp [keys]
    · have ih' : List.map Prod.fst (set o k v)
          = if k ∈ List.map Prod.fst o then List.map Prod.fst o
            else List.map Prod.fst o ++ [k] := ih
      simp only [h, if_false, keys, List.map_cons, List.mem_cons, ih', Ne.symm h, false_or]
      by_cases hk : k ∈ List.map Prod.fst o <;> simp [hk]

theorem get_eq_none_iff {α : Type} (o : JSObject α) (k : String) :
    o.get k = none ↔ k ∉ o.keys := by
  induction o with
  | nil => simp [get, keys]
  | cons p o ih =>
    obtain ⟨a, w⟩ := p
    by_cases h : a = k
    · subst h
      simp [get, keys]
    · have ih' : get o k = none ↔ k ∉ List.map Prod.fst o := ih
      simp only [get, h, if_false, keys, List.map_cons, List.mem_cons, Ne.symm h, false_or, ih']

theorem mem_keys_iff {α : Type} (o : JSObject α) (k : String) :
    k ∈ o.keys ↔ ∃ v, o.get k = some v := by
  rw [← Option.isSome_iff_exists, ← not_iff_not, ← get_eq_none_iff]
  cases o.get k <;> simp

theorem mem_iff_get {α : Type} (o : JSObject α) (h : o.keys.Nodup) (k : String) (v : α) :
    (k, v) ∈ o ↔ o.get k = some v := by
  induction o with
  | nil => simp [get]
  | cons p o ih =>
    obtain ⟨a, w⟩ := p
    have hn : a ∉ List.map Prod.fst o ∧ (List.map Prod.fst o).Nodup := List.nodup_cons.mp h
    by_cases hk : a = k
    · subst hk
      simp only [List.mem_cons, Prod.mk.injEq, true_and, get, if_true, Option.some.injEq]
      constructor
      · rintro (h1 | h1)
        · exact h1.symm
        · exact absurd (List.mem_map_of_mem Prod.fst h1) hn.1
      · intro h1
        exact Or.inl h1.symm
    · simp only [List.mem_cons, Prod.mk.injEq, get, hk, if_false, Ne.symm hk, false_and, false_or]
      exact ih hn.2

theorem entries_perm {α : Type} (o : JSObject α) : (entries o).Perm o := by
  unfold entries
  refine (List.Perm.append_right _ (List.perm_insertionSort _ _)).trans ?_
  exact List.filter_append_perm (fun p => isArrayIndex p.1) o

theorem entries_eq_self {α : Type} (o : JSObject α)
    (h : ∀ k ∈ o.keys, isArrayIndex k = false) : entries o = o := by
  have h1 : o.filter (fun p => isArrayIndex p.1) = [] := by
    rw [List.filter_eq_nil_iff]
    intro p hp
    simp [h p.1 (List.mem_map_of_mem Prod.fst hp)]
  have h2 : o.filter (fun p => !isArrayIndex p.1) = o := by
    rw [List.filter_eq_self]
    intro p hp
    simp [h p.1 (List.mem_map_of_mem Prod.fst hp)]
  simp [entries, h1, h2]

end JSObject

/-! ## The fold over ownership records -/

theorem recordWallet_eq_some (e : OwnerEntry) (w : String) :
    recordWallet e = some w ↔ e.ownerAddress = some w ∧ w ≠ "" := by
  unfold recordWallet truthy
  cases h : e.ownerAddress with
  | none => simp
  | some a =>
    by_cases ha : a = ""
    · subst ha
      simp only [ne_eq, not_true_eq_false, decide_False, Bool.false_eq_true, if_false,
        Option.some.injEq]
      constructor
      · intro h1
        exact Option.noConfusion h1
      · rintro ⟨h1, h2⟩
        exact absurd h1.symm h2
    · simp only [ne_eq, ha, not_false_eq_true, decide_True, if_true, Option.some.injEq]
      constructor
      · intro h1
        exact ⟨h1, h1 ▸ ha⟩
      · intro h1
        exact h1.1

theorem contributesTo_iff (w : String) (r : String × OwnerEntry) :
    contributesTo w r = true ↔ recordWallet r.2 = some w ∧ 0 < sumForThisContract r.2 := by
  simp [contributesTo]

theorem foldOwnerEntry_skip (contract : String) (st : AggState) (e : OwnerEntry)
    (h : recordWallet e = none ∨ ¬ 0 < sumForThisContract e) :
    foldOwnerEntry contract st e = st := by
  unfold foldOwnerEntry
  by_cases ht : truthy e.ownerAddress = true
  · rcases h with h | h
    · simp only [recordWallet, ht, if_true] at h
      simp [truthy, h] at ht
    · simp only [ht, if_true, h, if_false]
  · simp only [ht, if_false]
    simp

theorem foldOwnerEntry_pos (contract : String) (st : AggState) (e : OwnerEntry) (a : String)
    (hw : recordWallet e = some a) (hs : 0 < sumForThisContract e) :
    foldOwnerEntry contract st e =
      { combinedTotals :=
          st.combinedTotals.set a ((st.combinedTotals.get a).getD 0 + sumForThisContract e),
        collectionBreakdown :=
          (if (st.collectionBreakdown.get a).isNone then st.collectionBreakdown.set a []
            else st.collectionBreakdown).set a
            ((((if (st.collectionBreakdown.get a).isNone then st.collectionBreakdown.set a []
              else st.collectionBreakdown).get a).getD []).set contract
                (sumForThisContract e)) } := by
  have ha := (recordWallet_eq_some e a).mp hw
  have ht : truthy e.ownerAddress = true := by
    simp [truthy, ha.1, ha.2]
  unfold foldOwnerEntry
  rw [if_pos ht]
  simp only [hs, if_true, ha.1, Option.getD_some]

theorem foldRecords_concat (st : AggState) (rs : List (String × OwnerEntry))
    (r : String × OwnerEntry) :
    foldRecords st (rs ++ [r]) = foldOwnerEntry r.1 (foldRecords st rs) r.2 := by
  simp [foldRecords, List.foldl_append]

theorem foldRecords_append (st : AggState) (rs rs' : List (String × OwnerEntry)) :
    foldRecords st (rs ++ rs') = foldRecords (foldRecords st rs) rs' := by
  simp [foldRecords, List.foldl_append]

theorem mem_contributingWallets (w : String) (rs : List (String × OwnerEntry)) :
    w ∈ contributingWallets rs ↔ ∃ r ∈ rs, contributesTo w r = true := by
  simp only [contributingWallets, List.mem_filterMap, contributesTo_iff]
  constructor
  · rintro ⟨r, hr, h⟩
    by_cases hs : 0 < sumForThisContract r.2
    · simp only [hs, if_true] at h
      exact ⟨r, hr, h, hs⟩
    · simp [hs] at h
  · rintro ⟨r, hr, h, hs⟩
    exact ⟨r, hr, by simp [hs, h]⟩

theorem contributingWallets_concat_pos (rs : List (String × OwnerEntry))
    (r : String × OwnerEntry) (a : String)
    (hw : recordWallet r.2 = some a) (hs : 0 < sumForThisContract r.2) :
    contributingWallets (rs ++ [r]) = contributingWallets rs ++ [a] := by
  simp [contributingWallets, List.filterMap_append, hs, hw]

theorem contributingWallets_concat_skip (rs : List (String × OwnerEntry))
    (r : String × OwnerEntry)
    (h : recordWallet r.2 = none ∨ ¬ 0 < sumForThisContract r.2) :
    contributingWallets (rs ++ [r]) = contributingWallets rs := by
  rcases h with h | h
  · by_cases hs : 0 < sumForThisContract r.2 <;>
      simp [contributingWallets, List.filterMap_append, hs, h]
  · simp [contributingWallets, List.filterMap_append, h]

theorem contributesTo_of_skip (w : String) (r : String × OwnerEntry)
    (h : recordWallet r.2 = none ∨ ¬ 0 < sumForThisContract r.2) :
    contributesTo w r = false := by
  rw [← Bool.not_eq_true, contributesTo_iff]
  rintro ⟨h1, h2⟩
  rcases h with h | h
  · rw [h] at h1
    exact Option.noConfusion h1
  · exact h h2

theorem contributesTo_of_pos (w : String) (r : String × OwnerEntry) (a : String)
    (hw : recordWallet r.2 = some a) (hs : 0 < sumForThisContract r.2) :
    contributesTo w r = decide (a = w) := by
  by_cases h : a = w
  · subst h
    simp [contributesTo, hw, hs]
  · simp only [contributesTo, hw, Option.some.injEq, h, decide_False, Bool.false_and]

theorem totalContribution_concat (w : String) (rs : List (String × OwnerEntry))
    (r : String × OwnerEntry) :
    totalContribution w (rs ++ [r]) =
      totalContribution w rs + (if contributesTo w r = true then sumForThisContract r.2 else 0) := by
  unfold totalContribution
  by_cases h : contributesTo w r = true
  · simp [List.filter_append, h]
  · simp [List.filter_append, h]

theorem totalContribution_of_not_mem (w : String) (rs : List (String × OwnerEntry))
    (h : w ∉ contributingWallets rs) : totalContribution w rs = 0 := by
  have : rs.filter (contributesTo w) = [] := by
    rw [List.filter_eq_nil_iff]
    intro r hr hc
    exact h ((mem_contributingWallets w rs).mpr ⟨r, hr, hc⟩)
  simp [totalContribution, this]

theorem lastContribution_concat (w c : String) (rs : List (String × OwnerEntry))
    (r : String × OwnerEntry) :
    lastContribution w c (rs ++ [r]) =
      if r.1 = c ∧ contributesTo w r = true then some (sumForThisContract r.2)
      else lastContribution w c rs := by
  unfold lastContribution
  by_cases h : r.1 = c ∧ contributesTo w r = true
  · simp [List.filter_append, h.1, h.2]
  · have h' : (decide (r.1 = c) && contributesTo w r) = false := by
      rw [← Bool.not_eq_true]
      simpa using h
    simp only [List.filter_append, List.filter_cons, h', List.filter_nil, List.append_nil, h,
      if_false]
    simp

/-! ## What the two maps hold after a fold -/

theorem combinedTotals_get (rs : List (String × OwnerEntry)) (w : String) :
    (foldRecords AggState.empty rs).combinedTotals.get w =
      if w ∈ contributingWallets rs then some (totalContribution w rs) else none := by
  induction rs using List.reverseRecOn generalizing w with
  | nil => simp [foldRecords, AggState.empty, JSObject.get, contributingWallets]
  | append_singleton rs r ih =>
    rw [foldRecords_concat]
    by_cases hpos : ∃ a, recordWallet r.2 = some a ∧ 0 < sumForThisContract r.2
    · obtain ⟨a, hw, hs⟩ := hpos
      rw [foldOwnerEntry_pos _ _ _ a hw hs, contributingWallets_concat_pos rs r a hw hs,
        totalContribution_concat, contributesTo_of_pos w r a hw hs]
      simp only [JSObject.get_set, ih, List.mem_append, List.mem_singleton, decide_eq_true_eq]
      by_cases haw : a = w
      · subst haw
        by_cases hmem : a ∈ contributingWallets rs
        · simp [hmem]
        · simp [hmem, totalContribution_of_not_mem a rs hmem]
      · have hwa : ¬ w = a := fun h => haw h.symm
        simp [haw, hwa]
    · have hskip : recordWallet r.2 = none ∨ ¬ 0 < sumForThisContract r.2 := by
        by_cases hs : 0 < sumForThisContract r.2
        · left
          cases hrw : recordWallet r.2 with
          | none => rfl
          | some a => exact absurd ⟨a, hrw, hs⟩ hpos
        · exact Or.inr hs
      rw [foldOwnerEntry_skip _ _ _ hskip, contributingWallets_concat_skip rs r hskip,
        totalContribution_concat, contributesTo_of_skip w r hskip, ih]
      simp

theorem ensure_get_getD (cb : JSObject (JSObject Int)) (a : String) :
    ((if (cb.get a).isNone then cb.set a [] else cb).get a).getD [] = (cb.get a).getD [] := by
  cases h : cb.get a with
  | none => simp [JSObject.get_set]
  | some v => simp [h]

theorem ensure_get_of_ne (cb : JSObject (JSObject Int)) (a w : String) (h : a ≠ w) :
    (if (cb.get a).isNone then cb.set a [] else cb).get w = cb.get w := by
  by_cases hn : (cb.get a).isNone = true
  · simp [hn, JSObject.get_set, h]
  · simp [hn]

theorem collectionBreakdown_get (rs : List (String × OwnerEntry)) (w c : String) :
    (((foldRecords AggState.empty rs).collectionBreakdown.get w).getD []).get c =
      lastContribution w c rs := by
  induction rs using List.reverseRecOn generalizing w c with
  | nil => simp [foldRecords, AggState.empty, JSObject.get, lastContribution]
  | append_singleton rs r ih =>
    rw [foldRecords_concat, lastContribution_concat]
    by_cases hpos : ∃ a, recordWallet r.2 = some a ∧ 0 < sumForThisContract r.2
    · obtain ⟨a, hw, hs⟩ := hpos
      rw [foldOwnerEntry_pos _ _ _ a hw hs, contributesTo_of_pos w r a hw hs]
      simp only [JSObject.get_set, ensure_get_getD, decide_eq_true_eq]
      by_cases haw : a = w
      · subst haw
        simp only [if_true, Option.getD_some, JSObject.get_set, ih, and_true]
      · simp only [haw, if_false, and_false]
        rw [ensure_get_of_ne _ _ _ haw, ih]
    · have hskip : recordWallet r.2 = none ∨ ¬ 0 < sumForThisContract r.2 := by
        by_cases hs : 0 < sumForThisContract r.2
        · left
          cases hrw : recordWallet r.2 with
          | none => rfl
          | some a => exact absurd ⟨a, hrw, hs⟩ hpos
        · exact Or.inr hs
      rw [foldOwnerEntry_skip _ _ _ hskip, contributesTo_of_skip w r hskip, ih]
      simp

theorem combinedTotals_keys_order (rs : List (String × OwnerEntry)) :
    (foldRecords AggState.empty rs).combinedTotals.keys.Pairwise
      (fun a b => (contributingWallets rs).indexOf a < (contributingWallets rs).indexOf b) := by
  induction rs using List.reverseRecOn with
  | nil => simp [foldRecords, AggState.empty, JSObject.keys]
  | append_singleton rs r ih =>
    have hkeys : ∀ x, x ∈ (foldRecords AggState.empty rs).combinedTotals.keys ↔
        x ∈ contributingWallets rs := by
      intro x
      rw [← not_iff_not, ← JSObject.get_eq_none_iff, combinedTotals_get]
      by_cases hx : x ∈ contributingWallets rs <;> simp [hx]
    rw [foldRecords_concat]
    by_cases hpos : ∃ a, recordWallet r.2 = some a ∧ 0 < sumForThisContract r.2
    · obtain ⟨a, hw, hs⟩ := hpos
      rw [foldOwnerEntry_pos _ _ _ a hw hs, contributingWallets_concat_pos rs r a hw hs]
      simp only [JSObject.keys_set]
      have hold : (foldRecords AggState.empty rs).combinedTotals.keys.Pairwise
          (fun x y => (contributingWallets rs ++ [a]).indexOf x
            < (contributingWallets rs ++ [a]).indexOf y) := by
        refine List.Pairwise.imp_of_mem ?_ ih
        intro x y hx hy hxy
        rw [List.indexOf_append_of_mem ((hkeys x).mp hx),
          List.indexOf_append_of_mem ((hkeys y).mp hy)]
        exact hxy
      by_cases hmem : a ∈ (foldRecords AggState.empty rs).combinedTotals.keys
      · simpa [hmem] using hold
      · simp only [hmem, if_false]
        rw [List.pairwise_append]
        refine ⟨hold, List.pairwise_singleton _ _, ?_⟩
        intro x hx y hy
        rw [List.mem_singleton] at hy
        subst hy
        have hnot : y ∉ contributingWallets rs := fun h => hmem ((hkeys y).mpr h)
        rw [List.indexOf_append_of_mem ((hkeys x).mp hx), List.indexOf_append_of_not_mem hnot]
        have := List.indexOf_lt_length.mpr ((hkeys x).mp hx)
        omega
    · have hskip : recordWallet r.2 = none ∨ ¬ 0 < sumForThisContract r.2 := by
        by_cases hs : 0 < sumForThisContract r.2
        · left
          cases hrw : recordWallet r.2 with
          | none => rfl
          | some a => exact absurd ⟨a, hrw, hs⟩ hpos
        · exact Or.inr hs
      rw [foldOwnerEntry_skip _ _ _ hskip, contributingWallets_concat_skip rs r hskip]
      exact ih

theorem combinedTotals_keys_nodup (rs : List (String × OwnerEntry)) :
    (foldRecords AggState.empty rs).combinedTotals.keys.Nodup := by
  refine List.Pairwise.imp ?_ (combinedTotals_keys_order rs)
  intro a b h hab
  subst hab
  exact lt_irrefl _ h

theorem mem_combinedTotals_keys (rs : List (String × OwnerEntry)) (w : String) :
    w ∈ (foldRecords AggState.empty rs).combinedTotals.keys ↔ w ∈ contributingWallets rs := by
  rw [← not_iff_not, ← JSObject.get_eq_none_iff, combinedTotals_get]
  by_cases hx : w ∈ contributingWallets rs <;> simp [hx]

theorem mem_combinedTotals (rs : List (String × OwnerEntry)) (p : String × Int) :
    p ∈ (foldRecords AggState.empty rs).combinedTotals ↔
      p.1 ∈ contributingWallets rs ∧ p.2 = totalContribution p.1 rs := by
  obtain ⟨w, t⟩ := p
  rw [JSObject.mem_iff_get _ (combinedTotals_keys_nodup rs), combinedTotals_get]
  by_cases hx : w ∈ contributingWallets rs
  · simp only [hx, if_true, Option.some.injEq, true_and]
    exact eq_comm
  · simp [hx]

/-! ## The fetch loops -/

theorem foldPage_eq (contract : String) (st : AggState) (data : PageData) :
    foldPage contract st data = foldRecords st (pageRecords contract data) := by
  simp [foldPage, foldRecords, pageRecords, List.foldl_map]

theorem pageLoop_completed (provider : Provider) (contract : String) (fuel : Nat)
    (pageKey : Option String) (st st' : AggState)
    (h : (pageLoop provider contract fuel pageKey st).outcome = Outcome.completed st') :
    st' = foldRecords st
      ((pageChain provider contract fuel pageKey).flatMap (pageRecords contract)) := by
  induction fuel generalizing pageKey st with
  | zero => simp [pageLoop] at h
  | succ fuel ih =>
    unfold pageLoop at h
    unfold pageChain
    cases hp : provider (mkRequest contract pageKey) with
    | notOk status text => simp [hp] at h
    | ok data =>
      simp only [hp] at h ⊢
      by_cases hk : truthy data.pageKey = true
      · rw [if_pos hk] at h ⊢
        rw [List.flatMap_cons, foldRecords_append, ← foldPage_eq]
        exact ih _ _ h
      · rw [if_neg hk] at h ⊢
        simp only [Outcome.completed.injEq] at h
        simp only [List.flatMap_cons, List.flatMap_nil, List.append_nil, ← foldPage_eq]
        exact h.symm

theorem pageLoop_returned_status (provider : Provider) (contract : String) (fuel : Nat)
    (pageKey : Option String) (st : AggState) (resp : HandlerResponse)
    (h : (pageLoop provider contract fuel pageKey st).outcome = Outcome.returned resp) :
    resp.status = 500 := by
  induction fuel generalizing pageKey st with
  | zero => simp [pageLoop] at h
  | succ fuel ih =>
    unfold pageLoop at h
    cases hp : provider (mkRequest contract pageKey) with
    | notOk status text =>
      simp only [hp, Outcome.returned.injEq] at h
      rw [← h]
    | ok data =>
      simp only [hp] at h
      by_cases hk : truthy data.pageKey = true
      · rw [if_pos hk] at h
        exact ih _ _ h
      · rw [if_neg hk] at h
        simp at h

theorem contractsLoop_completed (provider : Provider) (fuel : Nat) (contracts : List String)
    (st st' : AggState)
    (h : (contractsLoop provider fuel contracts st).outcome = Outcome.completed st') :
    st' = foldRecords st (fetchedRecords provider fuel contracts) := by
  induction contracts generalizing st with
  | nil =>
    simp only [contractsLoop, Outcome.completed.injEq] at h
    simp [fetchedRecords, foldRecords, h]
  | cons c cs ih =>
    unfold contractsLoop at h
    cases hf : (pageLoop provider c fuel none st).outcome with
    | completed st1 =>
      simp only [hf] at h
      have h1 := pageLoop_completed provider c fuel none st st1 hf
      have h2 := ih st1 h
      rw [h2, h1]
      simp only [fetchedRecords, collectionRecords, List.flatMap_cons, foldRecords_append]
    | returned resp => simp [hf] at h
    | pending => simp [hf] at h

theorem contractsLoop_returned_status (provider : Provider) (fuel : Nat)
    (contracts : List String) (st : AggState) (resp : HandlerResponse)
    (h : (contractsLoop provider fuel contracts st).outcome = Outcome.returned resp) :
    resp.status = 500 := by
  induction contracts generalizing st with
  | nil => simp [contractsLoop] at h
  | cons c cs ih =>
    unfold contractsLoop at h
    cases hf : (pageLoop provider c fuel none st).outcome with
    | completed st1 =>
      simp only [hf] at h
      exact ih st1 h
    | returned resp1 =>
      simp only [hf, Outcome.returned.injEq] at h
      rw [← h]
      exact pageLoop_returned_status provider c fuel none st resp1 hf
    | pending => simp [hf] at h

/-- A run that answers with status 200 completed both loops, and its body is built from
the fold of every fetched record. -/
theorem handler_success (toLowerCase : String → String) (provider : Provider) (fuel : Nat)
    (req : Request) (resp : HandlerResponse)
    (hrun : (handler toLowerCase provider fuel req).response = some resp)
    (hok : resp.status = 200) :
    resp = successResponse
      (foldRecords AggState.empty
        (fetchedRecords provider fuel (requestedContracts toLowerCase req)))
      (requestedContracts toLowerCase req) := by
  unfold handler at hrun
  by_cases hm : req.method ≠ "POST"
  · rw [if_pos hm] at hrun
    simp only [Option.some.injEq] at hrun
    rw [← hrun] at hok
    simp at hok
  · rw [if_neg hm] at hrun
    cases hc : req.contracts with
    | none =>
      simp only [hc, Option.some.injEq] at hrun
      rw [← hrun] at hok
      simp at hok
    | some l =>
      cases l with
      | nil =>
        simp only [hc, Option.some.injEq] at hrun
        rw [← hrun] at hok
        simp at hok
      | cons c cs =>
        simp only [hc] at hrun
        have hreq : requestedContracts toLowerCase req = uniqueContracts toLowerCase (c :: cs) := by
          simp [requestedContracts, hc]
        rw [hreq]
        cases ho : (contractsLoop provider fuel (uniqueContracts toLowerCase (c :: cs))
            AggState.empty).outcome with
        | completed st =>
          simp only [ho, Option.some.injEq] at hrun
          rw [← hrun, contractsLoop_completed provider fuel _ _ _ ho]
        | returned r =>
          simp only [ho, Option.some.injEq] at hrun
          have := contractsLoop_returned_status provider fuel _ _ _ ho
          rw [hrun] at this
          omega
        | pending => simp [ho] at hrun

/-! ## Ranking -/

theorem mem_sorted (st : AggState) (n : Nat) (e : WalletTotal) :
    e ∈ sorted st n ↔ ∃ p ∈ st.combinedTotals, toWalletTotal st n p = e := by
  unfold sorted
  rw [List.mem_map]
  constructor
  · rintro ⟨p, hp, he⟩
    exact ⟨p, (JSObject.entries_perm _).mem_iff.mp
      ((List.perm_insertionSort _ _).mem_iff.mp hp), he⟩
  · rintro ⟨p, hp, he⟩
    exact ⟨p, (List.perm_insertionSort _ _).mem_iff.mpr
      ((JSObject.entries_perm _).mem_iff.mpr hp), he⟩

theorem orderedInsert_pairwise_stable {α : Type} (r q : α → α → Prop) [DecidableRel r]
    [IsTotal α r] [IsTrans α r] (x : α) (l : List α)
    (hl : l.Pairwise (fun a b => r a b ∧ (r b a → q a b))) (hx : ∀ y ∈ l, q x y) :
    (l.orderedInsert r x).Pairwise (fun a b => r a b ∧ (r b a → q a b)) := by
  induction l with
  | nil => simp
  | cons y l ih =>
    rw [List.pairwise_cons] at hl
    by_cases hxy : r x y
    · simp only [List.orderedInsert, hxy, if_true]
      refine List.pairwise_cons.mpr ⟨?_, List.pairwise_cons.mpr hl⟩
      intro z hz
      rcases List.mem_cons.mp hz with hz | hz
      · subst hz
        exact ⟨hxy, fun _ => hx z (List.mem_cons_self _ _)⟩
      · exact ⟨IsTrans.trans _ _ _ hxy (hl.1 z hz).1, fun _ => hx z (List.mem_cons_of_mem _ hz)⟩
    · simp only [List.orderedInsert, hxy, if_false]
      refine List.pairwise_cons.mpr ⟨?_, ih hl.2 (fun z hz => hx z (List.mem_cons_of_mem _ hz))⟩
      intro z hz
      rcases (List.mem_orderedInsert r).mp hz with hz | hz
      · subst hz
        exact ⟨(total_of r y z).resolve_right hxy, fun h => absurd h hxy⟩
      · exact hl.1 z hz

theorem insertionSort_pairwise_stable {α : Type} (r q : α → α → Prop) [DecidableRel r]
    [IsTotal α r] [IsTrans α r] (l : List α) (hq : l.Pairwise q) :
    (l.insertionSort r).Pairwise (fun a b => r a b ∧ (r b a → q a b)) := by
  induction l with
  | nil => simp
  | cons x l ih =>
    rw [List.pairwise_cons] at hq
    simp only [List.insertionSort]
    apply orderedInsert_pairwise_stable r q x _ (ih hq.2)
    intro y hy
    exact hq.1 y ((List.perm_insertionSort r l).mem_iff.mp hy)

/-! ## The result of a successful run -/

theorem mem_sorted_foldRecords (rs : List (String × OwnerEntry)) (n : Nat) (e : WalletTotal)
    (h : e ∈ sorted (foldRecords AggState.empty rs) n) :
    e.wallet ∈ contributingWallets rs ∧ e.total = totalContribution e.wallet rs ∧
      e.breakdown = ((foldRecords AggState.empty rs).collectionBreakdown.get e.wallet).getD [] := by
  obtain ⟨p, hp, rfl⟩ := (mem_sorted _ _ _).mp h
  obtain ⟨h1, h2⟩ := (mem_combinedTotals rs p).mp hp
  exact ⟨h1, h2, rfl⟩

theorem lastContribution_eq_some (w c : String) (rs : List (String × OwnerEntry)) (v : Int)
    (h : lastContribution w c rs = some v) :
    ∃ r ∈ rs, r.1 = c ∧ contributesTo w r = true ∧ sumForThisContract r.2 = v := by
  have hm := List.mem_of_getLast?_eq_some h
  obtain ⟨r, hr, rfl⟩ := List.mem_map.mp hm
  obtain ⟨hr1, hr2⟩ := List.mem_filter.mp hr
  simp only [Bool.and_eq_true, decide_eq_true_eq] at hr2
  exact ⟨r, hr1, hr2.1, hr2.2, rfl⟩

theorem isArrayIndex_of_startsWith0x (w : String) (h : startsWith0x w = true) :
    isArrayIndex w = false := by
  unfold startsWith0x at h
  unfold isArrayIndex
  split at h
  · rename_i rest hd
    rw [hd]
    have : Char.isDigit 'x' = false := by decide
    simp [this]
  · exact absurd h (by simp)

theorem sorted_tie_order (rs : List (String × OwnerEntry)) (n : Nat)
    (h0x : ∀ w ∈ contributingWallets rs, startsWith0x w = true) :
    (sorted (foldRecords AggState.empty rs) n).Pairwise
      (fun a b => a.total = b.total →
        (contributingWallets rs).indexOf a.wallet < (contributingWallets rs).indexOf b.wallet) := by
  haveI : IsTotal (String × Int) (fun a b => b.2 ≤ a.2) := ⟨fun a b => le_total b.2 a.2⟩
  haveI : IsTrans (String × Int) (fun a b => b.2 ≤ a.2) :=
    ⟨fun a b c hab hbc => le_trans hbc hab⟩
  have hent : JSObject.entries (foldRecords AggState.empty rs).combinedTotals
      = (foldRecords AggState.empty rs).combinedTotals := by
    apply JSObject.entries_eq_self
    intro k hk
    exact isArrayIndex_of_startsWith0x k (h0x k ((mem_combinedTotals_keys rs k).mp hk))
  have hq : (foldRecords AggState.empty rs).combinedTotals.Pairwise
      (fun a b => (contributingWallets rs).indexOf a.1 < (contributingWallets rs).indexOf b.1) := by
    have := combinedTotals_keys_order rs
    unfold JSObject.keys at this
    rw [List.pairwise_map] at this
    exact this
  unfold sorted
  rw [hent, List.pairwise_map]
  refine List.Pairwise.imp ?_
    (insertionSort_pairwise_stable (fun a b : String × Int => b.2 ≤ a.2) _ _ hq)
  intro a b hab heq
  exact hab.2 (le_of_eq heq)

/-! ## Order among equal totals -/

/-- C5: in a run that answers with status 200 in which every wallet address starts with
`0x`, two result entries with equal `total` stand in first-encounter order: the wallet
whose first positive contribution comes earlier in the fetch sequence comes first. -/
theorem ties_in_first_encounter_order (toLowerCase : String → String)
    (provider : Provider) (fuel : Nat) (req : Request) (resp : HandlerResponse)
    (hrun : (handler toLowerCase provider fuel req).response = some resp)
    (hok : resp.status = 200)
    (h0x : ∀ r ∈ fetchedRecords provider fuel (requestedContracts toLowerCase req),
      ∀ w, r.2.ownerAddress = some w → startsWith0x w = true) :
    ∃ result, resp.body.result = some result ∧
      ∀ (i j : Nat) (hi : i < result.length) (hj : j < result.length), i < j →
        (result.get ⟨i, hi⟩).total = (result.get ⟨j, hj⟩).total →
        (contributingWallets
            (fetchedRecords provider fuel (requestedContracts toLowerCase req))).indexOf
          (result.get ⟨i, hi⟩).wallet <
        (contributingWallets
            (fetchedRecords provider fuel (requestedContracts toLowerCase req))).indexOf
          (result.get ⟨j, hj⟩).wallet := by
  rw [handler_success toLowerCase provider fuel req resp hrun hok]
  refine ⟨_, rfl, ?_⟩
  intro i j hi hj hij
  have h0x' : ∀ w ∈ contributingWallets
      (fetchedRecords provider fuel (requestedContracts toLowerCase req)),
      startsWith0x w = true := by
    intro w hw
    obtain ⟨r, hr, hc⟩ := (mem_contributingWallets w _).mp hw
    exact h0x r hr w ((recordWallet_eq_some _ _).mp ((contributesTo_iff w r).mp hc).1).1
  exact List.pairwise_iff_getElem.mp (sorted_tie_order _ _ h0x') i j hi hj hij

/-- C5 at the example: wallets `0xw1` and `0xw2` tie at 8 and every address starts with `0x`. -/
theorem ties_in_first_encounter_order_witness :
    (handler asciiLowerCase exampleProvider 3 exampleRequest).response = some exampleResponse ∧
    exampleResponse.status = 200 ∧
    (∀ r ∈ fetchedRecords exampleProvider 3 (requestedContracts asciiLowerCase exampleRequest),
      ∀ w, r.2.ownerAddress = some w → startsWith0x w = true) ∧
    ∃ result, exampleResponse.body.result = some result ∧
      ∀ (i j : Nat) (hi : i < result.length) (hj : j < result.length), i < j →
        (result.get ⟨i, hi⟩).total = (result.get ⟨j, hj⟩).total →
        (contributingWallets
            (fetchedRecords exampleProvider 3
              (requestedContracts asciiLowerCase exampleRequest))).indexOf
          (result.get ⟨i, hi⟩).wallet <
        (contributingWallets
            (fetchedRecords exampleProvider 3
              (requestedContracts asciiLowerCase exampleRequest))).indexOf
          (result.get ⟨j, hj⟩).wallet :=
  ⟨by rfl, by rfl, by decide,
    ties_in_first_encounter_order asciiLowerCase exampleProvider 3 exampleRequest
      exampleResponse (by rfl) (by rfl) (by decide)⟩

/-! ## Failed fetches -/

theorem succeeds_or_fails (provider : Provider) (rq : FetchRequest) :
    succeeds provider rq ∨ ∃ s t, provider rq = FetchResponse.notOk s t := by
  unfold succeeds
  cases h : provider rq with
  | ok data => exact Or.inl ⟨data, rfl⟩
  | notOk s t => exact Or.inr ⟨s, t, rfl⟩

theorem not_succeeds_of_fails (provider : Provider) (rq : FetchRequest) (s : Nat) (t : String)
    (h : provider rq = FetchResponse.notOk s t) : ¬ succeeds provider rq := by
  rintro ⟨d, hd⟩
  rw [h] at hd
  exact FetchResponse.noConfusion hd

theorem pageLoop_fetch_contract (provider : Provider) (contract : String) (fuel : Nat)
    (pageKey : Option String) (st : AggState) :
    ∀ x ∈ (pageLoop provider contract fuel pageKey st).fetches,
      x.contractAddress = contract := by
  induction fuel generalizing pageKey st with
  | zero => simp [pageLoop]
  | succ fuel ih =>
    intro x hx
    unfold pageLoop at hx
    cases hp : provider (mkRequest contract pageKey) with
    | notOk status text =>
      simp only [hp, List.mem_singleton] at hx
      rw [hx]; rfl
    | ok data =>
      simp only [hp] at hx
      by_cases hk : truthy data.pageKey = true
      · rw [if_pos hk] at hx
        rcases List.mem_cons.mp hx with hx | hx
        · rw [hx]; rfl
        · exact ih _ _ x hx
      · rw [if_neg hk] at hx
        rw [List.mem_singleton.mp hx]; rfl

theorem pageLoop_failed_fetch (provider : Provider) (contract : String) (fuel : Nat)
    (pageKey : Option String) (st : AggState) (rq : FetchRequest) (s : Nat) (t : String)
    (hmem : rq ∈ (pageLoop provider contract fuel pageKey st).fetches)
    (hfail : provider rq = FetchResponse.notOk s t) :
    (pageLoop provider contract fuel pageKey st).outcome =
      Outcome.returned { status := 500, body := errorBody (alchemyError contract s t) } := by
  induction fuel generalizing pageKey st with
  | zero => simp [pageLoop] at hmem
  | succ fuel ih =>
    unfold pageLoop at hmem ⊢
    cases hp : provider (mkRequest contract pageKey) with
    | notOk status text =>
      simp only [hp, List.mem_singleton] at hmem ⊢
      rw [hmem, hp] at hfail
      injection hfail with h1 h2
      rw [h1, h2]
    | ok data =>
      simp only [hp] at hmem ⊢
      by_cases hk : truthy data.pageKey = true
      · rw [if_pos hk] at hmem ⊢
        rcases List.mem_cons.mp hmem with hx | hx
        · rw [hx, hp] at hfail
          exact FetchResponse.noConfusion hfail
        · exact ih _ _ hx
      · rw [if_neg hk] at hmem
        rw [List.mem_singleton.mp hmem, hp] at hfail
        exact FetchResponse.noConfusion hfail

theorem pageLoop_completed_succeeds (provider : Provider) (contract : String) (fuel : Nat)
    (pageKey : Option String) (st st' : AggState)
    (h : (pageLoop provider contract fuel pageKey st).outcome = Outcome.completed st') :
    ∀ x ∈ (pageLoop provider contract fuel pageKey st).fetches, succeeds provider x := by
  intro x hx
  rcases succeeds_or_fails provider x with hs | ⟨s, t, hf⟩
  · exact hs
  · rw [pageLoop_failed_fetch provider contract fuel pageKey st x s t hx hf] at h
    exact Outcome.noConfusion h

theorem pageLoop_failFast (provider : Provider) (contract : String) (fuel : Nat)
    (pageKey : Option String) (st : AggState) :
    (pageLoop provider contract fuel pageKey st).fetches.Pairwise
      (fun a _ => succeeds provider a) := by
  induction fuel generalizing pageKey st with
  | zero => simp [pageLoop]
  | succ fuel ih =>
    unfold pageLoop
    cases hp : provider (mkRequest contract pageKey) with
    | notOk status text => simp
    | ok data =>
      simp only
      by_cases hk : truthy data.pageKey = true
      · rw [if_pos hk]
        exact List.pairwise_cons.mpr ⟨fun _ _ => ⟨data, hp⟩, ih _ _⟩
      · rw [if_neg hk]
        simp

theorem pageLoop_agree (provider provider' : Provider)
    (hagree : ∀ rq data, provider rq = FetchResponse.ok data →
      provider' rq = FetchResponse.ok data)
    (contract : String) (fuel : Nat) (pageKey : Option String) (st : AggState)
    (hall : ∀ x ∈ (pageLoop provider contract fuel pageKey st).fetches, succeeds provider x) :
    pageLoop provider' contract fuel pageKey st = pageLoop provider contract fuel pageKey st := by
  induction fuel generalizing pageKey st with
  | zero => simp [pageLoop]
  | succ fuel ih =>
    unfold pageLoop at hall ⊢
    cases hp : provider (mkRequest contract pageKey) with
    | notOk status text =>
      simp only [hp, List.mem_singleton, forall_eq] at hall
      exact absurd hall (not_succeeds_of_fails _ _ _ _ hp)
    | ok data =>
      simp only [hp, hagree _ _ hp] at hall ⊢
      by_cases hk : truthy data.pageKey = true
      · rw [if_pos hk] at hall
        rw [if_pos hk, if_pos hk, ih _ _ (fun x hx => hall x (List.mem_cons_of_mem _ hx))]
      · rw [if_neg hk, if_neg hk]

theorem pageLoop_fetches_isPrefix (provider provider' : Provider)
    (hagree : ∀ rq data, provider rq = FetchResponse.ok data →
      provider' rq = FetchResponse.ok data)
    (hfree : ∀ rq, succeeds provider' rq)
    (contract : String) (fuel : Nat) (pageKey : Option String) (st : AggState) :
    (pageLoop provider contract fuel pageKey st).fetches <+:
      (pageLoop provider' contract fuel pageKey st).fetches := by
  induction fuel generalizing pageKey st with
  | zero => simp [pageLoop]
  | succ fuel ih =>
    unfold pageLoop
    cases hp : provider (mkRequest contract pageKey) with
    | notOk status text =>
      obtain ⟨d, hd⟩ := hfree (mkRequest contract pageKey)
      simp only [hd]
      by_cases hk : truthy d.pageKey = true
      · rw [if_pos hk]
        exact ⟨_, rfl⟩
      · rw [if_neg hk]
    | ok data =>
      simp only [hagree _ _ hp]
      by_cases hk : truthy data.pageKey = true
      · rw [if_pos hk, if_pos hk]
        exact (List.prefix_cons_inj _).mpr (ih _ _)
      · rw [if_neg hk, if_neg hk]

theorem contractsLoop_cons_completed (provider : Provider) (fuel : Nat) (c : String)
    (cs : List String) (st st' : AggState)
    (h : (pageLoop provider c fuel none st).outcome = Outcome.completed st') :
    contractsLoop provider fuel (c :: cs) st =
      { fetches := (pageLoop provider c fuel none st).fetches
          ++ (contractsLoop provider fuel cs st').fetches,
        outcome := (contractsLoop provider fuel cs st').outcome } := by
  rw [contractsLoop]
  simp only [h]

theorem contractsLoop_cons_stopped (provider : Provider) (fuel : Nat) (c : String)
    (cs : List String) (st : AggState)
    (h : ∀ st', (pageLoop provider c fuel none st).outcome ≠ Outcome.completed st') :
    contractsLoop provider fuel (c :: cs) st =
      { fetches := (pageLoop provider c fuel none st).fetches,
        outcome := (pageLoop provider c fuel none st).outcome } := by
  rw [contractsLoop]
  cases ho : (pageLoop provider c fuel none st).outcome with
  | completed st' => exact absurd ho (h st')
  | returned resp => rfl
  | pending => rfl

theorem contractsLoop_failed_fetch (provider : Provider) (fuel : Nat) (contracts : List String)
    (st : AggState) (rq : FetchRequest) (s : Nat) (t : String)
    (hmem : rq ∈ (contractsLoop provider fuel contracts st).fetches)
    (hfail : provider rq = FetchResponse.notOk s t) :
    (contractsLoop provider fuel contracts st).outcome =
      Outcome.returned
        { status := 500, body := errorBody (alchemyError rq.contractAddress s t) } := by
  induction contracts generalizing st with
  | nil => simp [contractsLoop] at hmem
  | cons c cs ih =>
    by_cases hc : ∃ st', (pageLoop provider c fuel none st).outcome = Outcome.completed st'
    · obtain ⟨st', hst⟩ := hc
      rw [contractsLoop_cons_completed provider fuel c cs st st' hst] at hmem ⊢
      rcases List.mem_append.mp hmem with hx | hx
      · exact absurd (pageLoop_completed_succeeds provider c fuel none st st' hst rq hx)
          (not_succeeds_of_fails _ _ _ _ hfail)
      · exact ih st' hx
    · have hc' : ∀ st', (pageLoop provider c fuel none st).outcome ≠ Outcome.completed st' :=
        fun st' h => hc ⟨st', h⟩
      rw [contractsLoop_cons_stopped provider fuel c cs st hc'] at hmem ⊢
      have hca := pageLoop_fetch_contract provider c fuel none st rq hmem
      have := pageLoop_failed_fetch provider c fuel none st rq s t hmem hfail
      simp only [this, hca]

theorem contractsLoop_failFast (provider : Provider) (fuel : Nat) (contracts : List String)
    (st : AggState) :
    (contractsLoop provider fuel contracts st).fetches.Pairwise
      (fun a _ => succeeds provider a) := by
  induction contracts generalizing st with
  | nil => simp [contractsLoop]
  | cons c cs ih =>
    by_cases hc : ∃ st', (pageLoop provider c fuel none st).outcome = Outcome.completed st'
    · obtain ⟨st', hst⟩ := hc
      rw [contractsLoop_cons_completed provider fuel c cs st st' hst]
      refine List.pairwise_append.mpr ⟨pageLoop_failFast _ _ _ _ _, ih st', ?_⟩
      intro a ha _ _
      exact pageLoop_completed_succeeds provider c fuel none st st' hst a ha
    · have hc' : ∀ st', (pageLoop provider c fuel none st).outcome ≠ Outcome.completed st' :=
        fun st' h => hc ⟨st', h⟩
      rw [contractsLoop_cons_stopped provider fuel c cs st hc']
      exact pageLoop_failFast _ _ _ _ _

theorem contractsLoop_fetches_isPrefix (provider provider' : Provider)
    (hagree : ∀ rq data, provider rq = FetchResponse.ok data →
      provider' rq = FetchResponse.ok data)
    (hfree : ∀ rq, succeeds provider' rq)
    (fuel : Nat) (contracts : List String) (st : AggState) :
    (contractsLoop provider fuel contracts st).fetches <+:
      (contractsLoop provider' fuel contracts st).fetches := by
  induction contracts generalizing st with
  | nil => simp [contractsLoop]
  | cons c cs ih =>
    by_cases hc : ∃ st', (pageLoop provider c fuel none st).outcome = Outcome.completed st'
    · obtain ⟨st', hst⟩ := hc
      have hsame := pageLoop_agree provider provider' hagree c fuel none st
        (pageLoop_completed_succeeds provider c fuel none st st' hst)
      rw [contractsLoop_cons_completed provider fuel c cs st st' hst,
        contractsLoop_cons_completed provider' fuel c cs st st' (by rw [hsame]; exact hst),
        hsame]
      exact (List.prefix_append_right_inj _).mpr (ih st')
    · have hc' : ∀ st', (pageLoop provider c fuel none st).outcome ≠ Outcome.completed st' :=
        fun st' h => hc ⟨st', h⟩
      rw [contractsLoop_cons_stopped provider fuel c cs st hc']
      refine (pageLoop_fetches_isPrefix provider provider' hagree hfree c fuel none st).trans ?_
      by_cases hc2 : ∃ st', (pageLoop provider' c fuel none st).outcome = Outcome.completed st'
      · obtain ⟨st', hst⟩ := hc2
        rw [contractsLoop_cons_completed provider' fuel c cs st st' hst]
        exact List.prefix_append _ _
      · rw [contractsLoop_cons_stopped provider' fuel c cs st (fun st' h => hc2 ⟨st', h⟩)]

theorem contractsLoop_failed_position (provider : Provider) (fuel : Nat)
    (contracts : List String) (st : AggState) (rq : FetchRequest) (s : Nat) (t : String)
    (hmem : rq ∈ (contractsLoop provider fuel contracts st).fetches)
    (hfail : provider rq = FetchResponse.notOk s t) :
    ∃ before after, contracts = before ++ rq.contractAddress :: after ∧
      ∀ x ∈ (contractsLoop provider fuel contracts st).fetches,
        x.contractAddress ∈ before ++ [rq.contractAddress] := by
  induction contracts generalizing st with
  | nil => simp [contractsLoop] at hmem
  | cons c cs ih =>
    by_cases hc : ∃ st', (pageLoop provider c fuel none st).outcome = Outcome.completed st'
    · obtain ⟨st', hst⟩ := hc
      rw [contractsLoop_cons_completed provider fuel c cs st st' hst] at hmem ⊢
      rcases List.mem_append.mp hmem with hx | hx
      · exact absurd (pageLoop_completed_succeeds provider c fuel none st st' hst rq hx)
          (not_succeeds_of_fails _ _ _ _ hfail)
      · obtain ⟨before, after, hsplit, hall⟩ := ih st' hx
        refine ⟨c :: before, after, by rw [hsplit]; rfl, ?_⟩
        intro x hx'
        rcases List.mem_append.mp hx' with h1 | h1
        · rw [pageLoop_fetch_contract provider c fuel none st x h1]
          exact List.mem_cons_self _ _
        · exact List.mem_cons_of_mem _ (hall x h1)
    · have hc' : ∀ st', (pageLoop provider c fuel none st).outcome ≠ Outcome.completed st' :=
        fun st' h => hc ⟨st', h⟩
      rw [contractsLoop_cons_stopped provider fuel c cs st hc'] at hmem ⊢
      have hca := pageLoop_fetch_contract provider c fuel none st rq hmem
      refine ⟨[], cs, by rw [hca]; rfl, ?_⟩
      intro x hx'
      rw [pageLoop_fetch_contract provider c fuel none st x hx', hca]
      simp

/-! ## The handler and its loops -/

theorem handler_fetches_eq (toLowerCase : String → String) (provider : Provider) (fuel : Nat)
    (req : Request) :
    (handler toLowerCase provider fuel req).fetches =
      if req.method = "POST" ∧ req.contracts.getD [] ≠ [] then
        (contractsLoop provider fuel (requestedContracts toLowerCase req)
          AggState.empty).fetches
      else [] := by
  unfold handler
  by_cases hm : req.method ≠ "POST"
  · rw [if_pos hm, if_neg (fun h => hm h.1)]
  · rw [if_neg hm]
    have hm' : req.method = "POST" := not_not.mp hm
    cases hc : req.contracts with
    | none => simp
    | some l =>
      cases l with
      | nil => simp
      | cons c cs =>
        have hreq : requestedContracts toLowerCase req = uniqueContracts toLowerCase (c :: cs) := by
          simp [requestedContracts, hc]
        rw [hreq, if_pos ⟨hm', by simp⟩]
        simp only
        cases (contractsLoop provider fuel (uniqueContracts toLowerCase (c :: cs))
            AggState.empty).outcome <;> rfl

theorem handler_response_of_returned (toLowerCase : String → String) (provider : Provider)
    (fuel : Nat) (req : Request) (resp : HandlerResponse)
    (hne : (handler toLowerCase provider fuel req).fetches ≠ [])
    (hret : (contractsLoop provider fuel (requestedContracts toLowerCase req)
      AggState.empty).outcome = Outcome.returned resp) :
    (handler toLowerCase provider fuel req).response = some resp := by
  unfold handler at hne ⊢
  by_cases hm : req.method ≠ "POST"
  · rw [if_pos hm] at hne
    exact absurd rfl hne
  · rw [if_neg hm] at hne ⊢
    cases hc : req.contracts with
    | none =>
      rw [hc] at hne
      exact absurd rfl hne
    | some l =>
      cases l with
      | nil =>
        rw [hc] at hne
        exact absurd rfl hne
      | cons c cs =>
        have hreq : requestedContracts toLowerCase req = uniqueContracts toLowerCase (c :: cs) := by
          simp [requestedContracts, hc]
        rw [hreq] at hret
        simp only [hret]

theorem mem_handler_fetches (toLowerCase : String → String) (provider : Provider) (fuel : Nat)
    (req : Request) (rq : FetchRequest)
    (hmem : rq ∈ (handler toLowerCase provider fuel req).fetches) :
    (handler toLowerCase provider fuel req).fetches =
      (contractsLoop provider fuel (requestedContracts toLowerCase req)
        AggState.empty).fetches := by
  rw [handler_fetches_eq] at hmem ⊢
  by_cases h : req.method = "POST" ∧ req.contracts.getD [] ≠ []
  · rw [if_pos h]
  · rw [if_neg h] at hmem
    exact absurd hmem (List.not_mem_nil _)

theorem failFast_split (provider : Provider) (l : List FetchRequest)
    (hl : l.Pairwise (fun a _ => succeeds provider a)) (rq : FetchRequest)
    (hmem : rq ∈ l) (hfail : ¬ succeeds provider rq) :
    ∃ pre, l = pre ++ [rq] ∧ ∀ x ∈ pre, succeeds provider x := by
  obtain ⟨pre, post, rfl⟩ := List.append_of_mem hmem
  obtain ⟨_, h2, h3⟩ := List.pairwise_append.mp hl
  have hpost : post = [] := by
    cases post with
    | nil => rfl
    | cons y post =>
      exact absurd ((List.pairwise_cons.mp h2).1 y (List.mem_cons_self _ _)) hfail
  subst hpost
  exact ⟨pre, rfl, fun x hx => h3 x hx rq (List.mem_cons_self _ _)⟩

theorem repairedProvider_agrees (rq : FetchRequest) (data : PageData)
    (h : exampleProvider rq = FetchResponse.ok data) :
    repairedProvider rq = FetchResponse.ok data := by
  simp [repairedProvider, h]

theorem repairedProvider_succeeds (rq : FetchRequest) : succeeds repairedProvider rq := by
  unfold succeeds repairedProvider
  cases exampleProvider rq with
  | ok data => exact ⟨data, rfl⟩
  | notOk s t => exact ⟨_, rfl⟩

/-! ## Failure claims -/

/-- C7: when a page fetch issued by the handler for a collection `c` comes back as a
failure with status `s` and body `t`, the handler answers with status 500 and a body
whose only field is `error`, the text `Alchemy error for contract c: s t`; the body
has no `result`, `contracts` or `totalContracts`. -/
theorem failed_fetch_gives_error_response (toLowerCase : String → String)
    (provider : Provider) (fuel : Nat) (req : Request) (rq : FetchRequest)
    (s : Nat) (t : String)
    (hmem : rq ∈ (handler toLowerCase provider fuel req).fetches)
    (hfail : provider rq = FetchResponse.notOk s t) :
    (handler toLowerCase provider fuel req).response =
      some { status := 500,
             body := { error := some ("Alchemy error for contract " ++ rq.contractAddress
                         ++ ": " ++ toString s ++ " " ++ t),
                       result := none,
                       contracts := none,
                       totalContracts := none } } := by
  have hf := mem_handler_fetches toLowerCase provider fuel req rq hmem
  have hne : (handler toLowerCase provider fuel req).fetches ≠ [] :=
    List.ne_nil_of_mem hmem
  rw [hf] at hmem
  exact handler_response_of_returned toLowerCase provider fuel req _ hne
    (contractsLoop_failed_fetch provider fuel _ _ rq s t hmem hfail)

/-- C7 at the example: the fetch for `0xcc`, the second of three collections, fails
with 404 after two pages of `0xaa` were folded. -/
theorem failed_fetch_gives_error_response_witness :
    ({ contractAddress := "0xcc", pageKey := none } : FetchRequest) ∈
      (handler asciiLowerCase exampleProvider 3 failingRequest).fetches ∧
    exampleProvider { contractAddress := "0xcc", pageKey := none } =
      FetchResponse.notOk 404 "not found" ∧
    (handler asciiLowerCase exampleProvider 3 failingRequest).response =
      some { status := 500,
             body := { error := some ("Alchemy error for contract " ++ "0xcc"
                         ++ ": " ++ toString 404 ++ " " ++ "not found"),
                       result := none,
                       contracts := none,
                       totalContracts := none } } :=
  ⟨by decide, by rfl,
    failed_fetch_gives_error_response asciiLowerCase exampleProvider 3 failingRequest
      { contractAddress := "0xcc", pageKey := none } 404 "not found" (by decide) (by rfl)⟩

/-- C8: when a fetch issued by the handler fails, it is the last fetch of the run and
every fetch before it succeeded; the fetches made are an initial segment of the fetches
made against any failure-free provider that agrees with this one where this one
succeeds; and every fetch is for the failing collection or one before it in the
normalised list, none for a later one. -/
theorem no_fetch_after_failure (toLowerCase : String → String)
    (provider provider' : Provider) (fuel : Nat) (req : Request) (rq : FetchRequest)
    (s : Nat) (t : String)
    (hagree : ∀ x data, provider x = FetchResponse.ok data →
      provider' x = FetchResponse.ok data)
    (hfree : ∀ x, succeeds provider' x)
    (hmem : rq ∈ (handler toLowerCase provider fuel req).fetches)
    (hfail : provider rq = FetchResponse.notOk s t) :
    (∃ pre, (handler toLowerCase provider fuel req).fetches = pre ++ [rq] ∧
      ∀ x ∈ pre, succeeds provider x) ∧
    (handler toLowerCase provider fuel req).fetches <+:
      (handler toLowerCase provider' fuel req).fetches ∧
    ∃ before after,
      requestedContracts toLowerCase req = before ++ rq.contractAddress :: after ∧
      ∀ x ∈ (handler toLowerCase provider fuel req).fetches,
        x.contractAddress ∈ before ++ [rq.contractAddress] ∧ x.contractAddress ∉ after := by
  have hf := mem_handler_fetches toLowerCase provider fuel req rq hmem
  refine ⟨?_, ?_, ?_⟩
  · rw [hf] at hmem ⊢
    exact failFast_split provider _ (contractsLoop_failFast provider fuel _ _) rq hmem
      (not_succeeds_of_fails _ _ _ _ hfail)
  · rw [handler_fetches_eq, handler_fetches_eq]
    by_cases h : req.method = "POST" ∧ req.contracts.getD [] ≠ []
    · rw [if_pos h, if_pos h]
      exact contractsLoop_fetches_isPrefix provider provider' hagree hfree fuel _ _
    · rw [if_neg h, if_neg h]
  · rw [hf] at hmem ⊢
    obtain ⟨before, after, hsplit, hall⟩ :=
      contractsLoop_failed_position provider fuel _ _ rq s t hmem hfail
    refine ⟨before, after, hsplit, ?_⟩
    intro x hx
    refine ⟨hall x hx, ?_⟩
    have hnd : (requestedContracts toLowerCase req).Nodup := uniqueContracts_nodup _ _
    rw [hsplit, ← List.singleton_append, ← List.append_assoc] at hnd
    exact (List.nodup_append.mp hnd).2.2 (hall x hx)

/-- C8 at the example: of three collections the second fails; the fetches are the two
pages of `0xaa` and the failing fetch for `0xcc`, none for `0xbb`. -/
theorem no_fetch_after_failure_witness :
    (handler asciiLowerCase exampleProvider 3 failingRequest).fetches =
      [{ contractAddress := "0xaa", pageKey := none },
       { contractAddress := "0xaa", pageKey := some "p2" },
       { contractAddress := "0xcc", pageKey := none }] ∧
    (handler asciiLowerCase repairedProvider 3 failingRequest).fetches =
      [{ contractAddress := "0xaa", pageKey := none },
       { contractAddress := "0xaa", pageKey := some "p2" },
       { contractAddress := "0xcc", pageKey := none },
       { contractAddress := "0xbb", pageKey := none }] ∧
    ((∃ pre, (handler asciiLowerCase exampleProvider 3 failingRequest).fetches =
        pre ++ [{ contractAddress := "0xcc", pageKey := none }] ∧
      ∀ x ∈ pre, succeeds exampleProvider x) ∧
    (handler asciiLowerCase exampleProvider 3 failingRequest).fetches <+:
      (handler asciiLowerCase repairedProvider 3 failingRequest).fetches ∧
    ∃ before after,
      requestedContracts asciiLowerCase failingRequest = before ++ "0xcc" :: after ∧
      ∀ x ∈ (handler asciiLowerCase exampleProvider 3 failingRequest).fetches,
        x.contractAddress ∈ before ++ ["0xcc"] ∧ x.contractAddress ∉ after) :=
  ⟨by rfl, by rfl,
    no_fetch_after_failure asciiLowerCase exampleProvider repairedProvider 3 failingRequest
      { contractAddress := "0xcc", pageKey := none } 404 "not found"
      repairedProvider_agrees repairedProvider_succeeds (by decide) (by rfl)⟩

/-! ## Normaliser claims -/

/-- C9: for every input list, the output of the normaliser (`uniqueContracts`) has no
duplicate entries. -/
theorem normaliser_output_has_no_duplicates (toLowerCase : String → String)
    (contracts : List (Option String)) :
    (uniqueContracts toLowerCase contracts).Nodup :=
  (setFromArray_nodup _).filter _

/-- C10: for every input list, every entry of the normaliser's output is non-empty and
is a fixed point of trimming and of lower-casing: it neither starts nor ends with white
space. The lower-casing built-in is any function that is idempotent and keeps trimmed
strings trimmed. -/
theorem normaliser_entries_trimmed_lowercased (toLowerCase : String → String)
    (hidem : ∀ s, toLowerCase (toLowerCase s) = toLowerCase s)
    (htrim : ∀ s, trim s = s → trim (toLowerCase s) = toLowerCase s)
    (contracts : List (Option String)) :
    ∀ e ∈ uniqueContracts toLowerCase contracts,
      e ≠ "" ∧ trim e = e ∧ toLowerCase e = e ∧
      (∀ c, e.data.head? = some c → isJsWhiteSpace c = false) ∧
      (∀ c, e.data.getLast? = some c → isJsWhiteSpace c = false) := by
  intro e he
  obtain ⟨hne, c, _, rfl⟩ := (mem_uniqueContracts toLowerCase contracts e).mp he
  have ht : trim (toLowerCase (trim (c.getD ""))) = toLowerCase (trim (c.getD "")) :=
    htrim _ (trim_trim _)
  refine ⟨hne, ht, hidem _, ?_, ?_⟩
  · intro ch hch
    have h1 := ((trim_eq_self_iff _).mp ht).1
    generalize (toLowerCase (trim (c.getD ""))).data = l at h1 hch
    cases l with
    | nil => simp at hch
    | cons a l =>
      simp only [List.head?_cons, Option.some.injEq] at hch
      subst hch
      by_cases ha : isJsWhiteSpace a = true
      · rw [List.dropWhile_cons, if_pos ha] at h1
        have hlen := congrArg List.length h1
        have hle := (List.dropWhile_sublist isJsWhiteSpace (l := l)).length_le
        simp only [List.length_cons] at hlen
        omega
      · simpa using ha
  · intro ch hch
    have h2 := ((trim_eq_self_iff _).mp ht).2
    generalize (toLowerCase (trim (c.getD ""))).data = l at h2 hch
    rw [List.rdropWhile_eq_self_iff] at h2
    obtain ⟨hl, hlast⟩ := List.mem_getLast?_eq_getLast hch
    have := h2 hl
    rw [← hlast] at this
    simpa using this

/-- C10 at ASCII lower-casing, which is idempotent and keeps trimmed strings trimmed. -/
theorem normaliser_entries_trimmed_lowercased_witness :
    (∀ s, asciiLowerCase (asciiLowerCase s) = asciiLowerCase s) ∧
    (∀ s, trim s = s → trim (asciiLowerCase s) = asciiLowerCase s) ∧
    ∀ e ∈ uniqueContracts asciiLowerCase [some " 0xAA", some "0xaa ", none, some "0xBb"],
      e ≠ "" ∧ trim e = e ∧ asciiLowerCase e = e ∧
      (∀ c, e.data.head? = some c → isJsWhiteSpace c = false) ∧
      (∀ c, e.data.getLast? = some c → isJsWhiteSpace c = false) :=
  ⟨asciiLowerCase_idem, asciiLowerCase_trim,
    normaliser_entries_trimmed_lowercased asciiLowerCase asciiLowerCase_idem
      asciiLowerCase_trim [some " 0xAA", some "0xaa ", none, some "0xBb"]⟩

/-! ## Order and refinement of the normaliser -/

theorem setFromArray_concat (xs : List String) (x : String) :
    setFromArray (xs ++ [x]) =
      if x ∈ setFromArray xs then setFromArray xs else setFromArray xs ++ [x] := by
  simp [setFromArray, List.foldl_append]

theorem setFromArray_order (xs : List String) :
    (setFromArray xs).Pairwise (fun a b => xs.indexOf a < xs.indexOf b) := by
  induction xs using List.reverseRecOn with
  | nil => simp [setFromArray]
  | append_singleton xs x ih =>
    rw [setFromArray_concat]
    have hold : (setFromArray xs).Pairwise
        (fun a b => (xs ++ [x]).indexOf a < (xs ++ [x]).indexOf b) := by
      refine List.Pairwise.imp_of_mem ?_ ih
      intro a b ha hb hab
      rw [List.indexOf_append_of_mem ((mem_setFromArray xs a).mp ha),
        List.indexOf_append_of_mem ((mem_setFromArray xs b).mp hb)]
      exact hab
    by_cases hx : x ∈ setFromArray xs
    · rw [if_pos hx]
      exact hold
    · rw [if_neg hx, List.pairwise_append]
      refine ⟨hold, List.pairwise_singleton _ _, ?_⟩
      intro a ha b hb
      rw [List.mem_singleton] at hb
      subst hb
      have hnot : b ∉ xs := fun h => hx ((mem_setFromArray xs b).mpr h)
      rw [List.indexOf_append_of_mem ((mem_setFromArray xs a).mp ha),
        List.indexOf_append_of_not_mem hnot]
      have := List.indexOf_lt_length.mpr ((mem_setFromArray xs a).mp ha)
      omega

theorem foldl_insert_eq_dedupKeepFirst (xs seen : List String) :
    xs.foldl (fun seen x => if x ∈ seen then seen else seen ++ [x]) seen =
      seen ++ (dedupKeepFirst xs).filter (fun y => decide (y ∉ seen)) := by
  induction xs generalizing seen with
  | nil => simp [dedupKeepFirst]
  | cons x xs ih =>
    simp only [List.foldl_cons, dedupKeepFirst]
    by_cases hx : x ∈ seen
    · rw [if_pos hx, ih, List.filter_cons_of_neg (by simpa using hx), List.filter_filter]
      congr 1
      apply List.filter_congr
      intro y _
      by_cases hy : y ∈ seen
      · simp [hy]
      · have : y ≠ x := fun h => hy (h ▸ hx)
        simp [hy, this]
    · rw [if_neg hx, ih, List.filter_cons_of_pos (by simpa using hx), List.filter_filter,
        List.append_assoc, List.singleton_append]
      congr 2
      apply List.filter_congr
      intro y _
      simp only [List.mem_append, List.mem_singleton, not_or, ne_eq, Bool.decide_and,
        Bool.and_comm]

theorem setFromArray_eq_dedupKeepFirst (xs : List String) :
    setFromArray xs = dedupKeepFirst xs := by
  rw [setFromArray, foldl_insert_eq_dedupKeepFirst]
  simp

theorem dedupKeepFirst_filter (p : String → Bool) (xs : List String) :
    (dedupKeepFirst xs).filter p = dedupKeepFirst (xs.filter p) := by
  induction xs with
  | nil => simp [dedupKeepFirst]
  | cons x xs ih =>
    by_cases hp : p x = true
    · rw [List.filter_cons_of_pos hp]
      simp only [dedupKeepFirst]
      rw [List.filter_cons_of_pos hp, ← ih, List.filter_filter, List.filter_filter]
      congr 1
      apply List.filter_congr
      intro y _
      exact Bool.and_comm _ _
    · rw [List.filter_cons_of_neg hp]
      simp only [dedupKeepFirst]
      rw [List.filter_cons_of_neg hp, ← ih, List.filter_filter]
      apply List.filter_congr
      intro y _
      by_cases hy : p y = true
      · have : y ≠ x := fun h => hp (h ▸ hy)
        simp [hy, this]
      · simp [hy]

theorem eq_singleton_of_nodup (l : List String) (n : String) (hnd : l.Nodup)
    (hmem : ∀ a, a ∈ l ↔ a = n) : l = [n] := by
  cases l with
  | nil => exact absurd ((hmem n).mpr rfl) (List.not_mem_nil _)
  | cons a l =>
    have ha : a = n := (hmem a).mp (List.mem_cons_self _ _)
    cases l with
    | nil => rw [ha]
    | cons b l =>
      have hb : b = n := (hmem b).mp (List.mem_cons_of_mem _ (List.mem_cons_self _ _))
      have hab : a ≠ b := by
        intro h
        have := (List.nodup_cons.mp hnd).1
        exact this (h ▸ List.mem_cons_self _ _)
      exact absurd (ha.trans hb.symm) hab

/-- C11: the normaliser preserves first-occurrence order: when `a` stands before `b` in
the output, the first input position whose trimmed, lower-cased form is `a` is smaller
than the first input position whose form is `b`. -/
theorem normaliser_preserves_first_occurrence_order (toLowerCase : String → String)
    (contracts : List (Option String)) (i j : Nat)
    (hi : i < (uniqueContracts toLowerCase contracts).length)
    (hj : j < (uniqueContracts toLowerCase contracts).length) (hij : i < j) :
    (contracts.map (normalForm toLowerCase)).indexOf
        ((uniqueContracts toLowerCase contracts).get ⟨i, hi⟩) <
      (contracts.map (normalForm toLowerCase)).indexOf
        ((uniqueContracts toLowerCase contracts).get ⟨j, hj⟩) := by
  have h := (setFromArray_order (contracts.map (normalForm toLowerCase))).filter
    (fun c => decide (c ≠ ""))
  exact List.pairwise_iff_getElem.mp h i j hi hj hij

/-- C11 at an input with repeated and empty entries: `b` first occurs at position 0 and
`a` at position 2 of the input. -/
theorem normaliser_preserves_first_occurrence_order_witness :
    uniqueContracts asciiLowerCase [some "B", some " ", some "a", none, some "b ", some "A"]
      = ["b", "a"] ∧
    ([some "B", some " ", some "a", none, some "b ", some "A"].map
        (normalForm asciiLowerCase)).indexOf
        ((uniqueContracts asciiLowerCase
          [some "B", some " ", some "a", none, some "b ", some "A"]).get ⟨0, by decide⟩) <
      ([some "B", some " ", some "a", none, some "b ", some "A"].map
        (normalForm asciiLowerCase)).indexOf
        ((uniqueContracts asciiLowerCase
          [some "B", some " ", some "a", none, some "b ", some "A"]).get ⟨1, by decide⟩) :=
  ⟨by rfl,
    normaliser_preserves_first_occurrence_order asciiLowerCase
      [some "B", some " ", some "a", none, some "b ", some "A"] 0 1 (by decide) (by decide)
      (by decide)⟩

/-- C12: the normaliser as coded (trim and lower-case every entry, deduplicate with a
Set, then drop the empty string) returns, for every input, the list of the specified
pipeline (trim, lower-case, drop empty results, then deduplicate keeping first
occurrences). -/
theorem normaliser_refines_specified_pipeline (toLowerCase : String → String)
    (contracts : List (Option String)) :
    uniqueContracts toLowerCase contracts = specNormaliser toLowerCase contracts := by
  unfold uniqueContracts specNormaliser
  rw [setFromArray_eq_dedupKeepFirst, dedupKeepFirst_filter]

/-- C13: a non-empty input whose entries all have one non-empty trimmed, lower-cased
form `n` is normalised to `[n]`; and for every input the length of the output is the
number of distinct non-empty trimmed, lower-cased forms of the input. -/
theorem normaliser_collapses_variants (toLowerCase : String → String)
    (contracts : List (Option String)) :
    (∀ n : String, contracts ≠ [] → n ≠ "" →
      (∀ c ∈ contracts, normalForm toLowerCase c = n) →
      uniqueContracts toLowerCase contracts = [n]) ∧
    (uniqueContracts toLowerCase contracts).length =
      (((contracts.map (normalForm toLowerCase)).filter (fun c => c ≠ "")).toFinset).card := by
  constructor
  · intro n hne hn hall
    apply eq_singleton_of_nodup _ _ (uniqueContracts_nodup _ _)
    intro a
    rw [mem_uniqueContracts]
    constructor
    · rintro ⟨_, c, hc, rfl⟩
      exact hall c hc
    · rintro rfl
      obtain ⟨c, hc⟩ := List.exists_mem_of_ne_nil _ hne
      exact ⟨hn, c, hc, hall c hc⟩
  · rw [← List.toFinset_card_of_nodup (uniqueContracts_nodup toLowerCase contracts)]
    congr 1
    ext a
    simp only [List.mem_toFinset, mem_uniqueContracts, List.mem_filter, List.mem_map,
      decide_eq_true_eq, normalForm]
    tauto

/-- C13 at scenario D: three case and white-space variants of `0xabc` collapse. -/
theorem normaliser_collapses_variants_witness :
    scenarioDContracts ≠ [] ∧ "0xabc" ≠ "" ∧
    (∀ c ∈ scenarioDContracts, normalForm asciiLowerCase c = "0xabc") ∧
    uniqueContracts asciiLowerCase scenarioDContracts = ["0xabc"] :=
  ⟨by decide, by decide, by decide,
    (normaliser_collapses_variants asciiLowerCase scenarioDContracts).1 "0xabc"
      (by decide) (by decide) (by decide)⟩

/-! ## Shape of the response -/

theorem handler_success_state (toLowerCase : String → String) (provider : Provider)
    (fuel : Nat) (req : Request) (resp : HandlerResponse)
    (hrun : (handler toLowerCase provider fuel req).response = some resp)
    (hok : resp.status = 200) :
    ∃ cs st, req.contracts = some cs ∧
      (contractsLoop provider fuel (uniqueContracts toLowerCase cs) AggState.empty).outcome =
        Outcome.completed st ∧
      resp = successResponse st (uniqueContracts toLowerCase cs) := by
  unfold handler at hrun
  by_cases hm : req.method ≠ "POST"
  · rw [if_pos hm] at hrun
    simp only [Option.some.injEq] at hrun
    rw [← hrun] at hok
    simp at hok
  · rw [if_neg hm] at hrun
    cases hc : req.contracts with
    | none =>
      simp only [hc, Option.some.injEq] at hrun
      rw [← hrun] at hok
      simp at hok
    | some l =>
      cases l with
      | nil =>
        simp only [hc, Option.some.injEq] at hrun
        rw [← hrun] at hok
        simp at hok
      | cons c cs =>
        simp only [hc] at hrun
        cases ho : (contractsLoop provider fuel (uniqueContracts toLowerCase (c :: cs))
            AggState.empty).outcome with
        | completed st =>
          simp only [ho, Option.some.injEq] at hrun
          exact ⟨c :: cs, st, rfl, ho, hrun.symm⟩
        | returned r =>
          simp only [ho, Option.some.injEq] at hrun
          have := contractsLoop_returned_status provider fuel _ _ _ ho
          rw [hrun] at this
          omega
        | pending => simp [ho] at hrun

theorem sumForThisContract_of_all_zero (e : OwnerEntry)
    (h : ∀ tb ∈ e.tokenBalances.getD [], tb.balance.getD 0 = 0) :
    sumForThisContract e = 0 := by
  unfold sumForThisContract
  generalize e.tokenBalances.getD [] = l at h
  have key : ∀ (l : List TokenBalance) (acc : Int),
      (∀ tb ∈ l, tb.balance.getD 0 = 0) →
      l.foldl (fun sum tb => sum + tb.balance.getD 0) acc = acc := by
    intro l
    induction l with
    | nil => intro acc _; rfl
    | cons tb l ih =>
      intro acc hl
      rw [List.foldl_cons, hl tb (List.mem_cons_self _ _), add_zero]
      exact ih acc (fun x hx => hl x (List.mem_cons_of_mem _ hx))
  exact key l 0 h

/-- C14: for a POST request whose `contracts` is not an array or is an empty array, the
handler answers with status 400 and a body whose only field is `error`, and issues no
page fetch. -/
theorem missing_or_empty_contracts_rejected (toLowerCase : String → String)
    (provider : Provider) (fuel : Nat) (req : Request)
    (hm : req.method = "POST")
    (hc : req.contracts = none ∨ req.contracts = some []) :
    handler toLowerCase provider fuel req =
      { fetches := [],
        response := some
          { status := 400,
            body := { error := some "Must include a non‐empty array `contracts`.",
                      result := none,
                      contracts := none,
                      totalContracts := none } } } := by
  unfold handler
  rw [if_neg (not_not.mpr hm)]
  rcases hc with hc | hc <;> rw [hc] <;> rfl

/-- C14 at a POST request with an empty array, against any fuel of the loop. -/
theorem missing_or_empty_contracts_rejected_witness :
    ("POST" = "POST") ∧ ((some [] : Option (List (Option String))) = none ∨
      (some [] : Option (List (Option String))) = some []) ∧
    handler asciiLowerCase exampleProvider 3 { method := "POST", contracts := some [] } =
      { fetches := [],
        response := some
          { status := 400,
            body := { error := some "Must include a non‐empty array `contracts`.",
                      result := none,
                      contracts := none,
                      totalContracts := none } } } :=
  ⟨rfl, Or.inr rfl,
    missing_or_empty_contracts_rejected asciiLowerCase exampleProvider 3
      { method := "POST", contracts := some [] } rfl (Or.inr rfl)⟩

/-- C18: on success the response has `contracts` equal to the normalised identifier
list of the request, in order, and `totalContracts` equal to the length of that list. -/
theorem success_reports_normalised_contracts (toLowerCase : String → String)
    (provider : Provider) (fuel : Nat) (req : Request) (resp : HandlerResponse)
    (hrun : (handler toLowerCase provider fuel req).response = some resp)
    (hok : resp.status = 200) :
    ∃ cs, req.contracts = some cs ∧
      resp.body.contracts = some (uniqueContracts toLowerCase cs) ∧
      resp.body.totalContracts = some (uniqueContracts toLowerCase cs).length := by
  obtain ⟨cs, st, hcs, _, hresp⟩ :=
    handler_success_state toLowerCase provider fuel req resp hrun hok
  exact ⟨cs, hcs, by rw [hresp]; rfl, by rw [hresp]; rfl⟩

/-- C18 at the example: the hypotheses hold for the two-collection provider. -/
theorem success_reports_normalised_contracts_witness :
    (handler asciiLowerCase exampleProvider 3 exampleRequest).response = some exampleResponse ∧
    exampleResponse.status = 200 ∧
    ∃ cs, exampleRequest.contracts = some cs ∧
      exampleResponse.body.contracts = some (uniqueContracts asciiLowerCase cs) ∧
      exampleResponse.body.totalContracts = some (uniqueContracts asciiLowerCase cs).length :=
  ⟨by rfl, by rfl,
    success_reports_normalised_contracts asciiLowerCase exampleProvider 3 exampleRequest
      exampleResponse (by rfl) (by rfl)⟩

/-- C19: folding a record whose balance sum is at most 0, for example one whose token
balances are all zero, leaves the state as it was: the combined totals and the
breakdown map are unchanged, so every wallet keeps the entries it had. -/
theorem nonpositive_record_leaves_maps_unchanged (contract : String) (st : AggState)
    (ownerEntry : OwnerEntry) :
    (sumForThisContract ownerEntry ≤ 0 →
      foldOwnerEntry contract st ownerEntry = st ∧
      (foldOwnerEntry contract st ownerEntry).combinedTotals = st.combinedTotals ∧
      (foldOwnerEntry contract st ownerEntry).collectionBreakdown = st.collectionBreakdown) ∧
    ((∀ tb ∈ ownerEntry.tokenBalances.getD [], tb.balance.getD 0 = 0) →
      foldOwnerEntry contract st ownerEntry = st) := by
  have key : sumForThisContract ownerEntry ≤ 0 → foldOwnerEntry contract st ownerEntry = st :=
    fun h => foldOwnerEntry_skip contract st ownerEntry (Or.inr (not_lt.mpr h))
  refine ⟨fun h => ⟨key h, by rw [key h], by rw [key h]⟩, ?_⟩
  intro h
  exact key (le_of_eq (sumForThisContract_of_all_zero ownerEntry h))

/-- C19 at a wallet that already holds 3 tokens of `0xaa` and comes back with two zero
balances for `0xbb`. -/
theorem nonpositive_record_leaves_maps_unchanged_witness :
    sumForThisContract (exampleEntry "0xw1" [0, 0]) ≤ 0 ∧
    foldOwnerEntry "0xbb"
        { combinedTotals := [("0xw1", 3)], collectionBreakdown := [("0xw1", [("0xaa", 3)])] }
        (exampleEntry "0xw1" [0, 0]) =
      { combinedTotals := [("0xw1", 3)], collectionBreakdown := [("0xw1", [("0xaa", 3)])] } :=
  ⟨by decide,
    ((nonpositive_record_leaves_maps_unchanged "0xbb"
      { combinedTotals := [("0xw1", 3)], collectionBreakdown := [("0xw1", [("0xaa", 3)])] }
      (exampleEntry "0xw1" [0, 0])).1 (by decide)).1⟩

/-! ## Keys and values of the breakdown -/

theorem JSObject.keys_nodup_set {α : Type} (o : JSObject α) (k : String) (v : α)
    (h : o.keys.Nodup) : (o.set k v).keys.Nodup := by
  rw [JSObject.keys_set]
  by_cases hk : k ∈ o.keys
  · rw [if_pos hk]
    exact h
  · rw [if_neg hk]
    exact List.Nodup.append h (List.nodup_singleton k) (by simpa using hk)

theorem mem_fetchedRecords_fst (provider : Provider) (fuel : Nat) (contracts : List String)
    (r : String × OwnerEntry) (h : r ∈ fetchedRecords provider fuel contracts) :
    r.1 ∈ contracts := by
  simp only [fetchedRecords, collectionRecords, pageRecords, List.mem_flatMap,
    List.mem_map] at h
  obtain ⟨c, hc, _, _, _, _, rfl⟩ := h
  exact hc

theorem breakdown_keys_nodup (rs : List (String × OwnerEntry)) (w : String) :
    (((foldRecords AggState.empty rs).collectionBreakdown.get w).getD []).keys.Nodup := by
  induction rs using List.reverseRecOn generalizing w with
  | nil => simp [foldRecords, AggState.empty, JSObject.get, JSObject.keys]
  | append_singleton rs r ih =>
    rw [foldRecords_concat]
    by_cases hpos : ∃ a, recordWallet r.2 = some a ∧ 0 < sumForThisContract r.2
    · obtain ⟨a, hw, hs⟩ := hpos
      rw [foldOwnerEntry_pos _ _ _ a hw hs]
      simp only [JSObject.get_set, ensure_get_getD]
      by_cases haw : a = w
      · subst haw
        simp only [if_true, Option.getD_some]
        exact JSObject.keys_nodup_set _ _ _ (ih a)
      · simp only [haw, if_false]
        rw [ensure_get_of_ne _ _ _ haw]
        exact ih w
    · have hskip : recordWallet r.2 = none ∨ ¬ 0 < sumForThisContract r.2 := by
        by_cases hs : 0 < sumForThisContract r.2
        · left
          cases hrw : recordWallet r.2 with
          | none => rfl
          | some a => exact absurd ⟨a, hrw, hs⟩ hpos
        · exact Or.inr hs
      rw [foldOwnerEntry_skip _ _ _ hskip]
      exact ih w

theorem collectionBreakdown_isSome (rs : List (String × OwnerEntry)) (w : String)
    (h : w ∈ contributingWallets rs) :
    ∃ b, (foldRecords AggState.empty rs).collectionBreakdown.get w = some b := by
  induction rs using List.reverseRecOn with
  | nil => simp [contributingWallets] at h
  | append_singleton rs r ih =>
    rw [foldRecords_concat]
    by_cases hpos : ∃ a, recordWallet r.2 = some a ∧ 0 < sumForThisContract r.2
    · obtain ⟨a, hw, hs⟩ := hpos
      rw [foldOwnerEntry_pos _ _ _ a hw hs]
      rw [contributingWallets_concat_pos rs r a hw hs, List.mem_append,
        List.mem_singleton] at h
      simp only [JSObject.get_set]
      by_cases haw : a = w
      · rw [if_pos haw]
        exact ⟨_, rfl⟩
      · rw [if_neg haw, ensure_get_of_ne _ _ _ haw]
        rcases h with h | h
        · exact ih h
        · exact absurd h.symm haw
    · have hskip : recordWallet r.2 = none ∨ ¬ 0 < sumForThisContract r.2 := by
        by_cases hs : 0 < sumForThisContract r.2
        · left
          cases hrw : recordWallet r.2 with
          | none => rfl
          | some a => exact absurd ⟨a, hrw, hs⟩ hpos
        · exact Or.inr hs
      rw [foldOwnerEntry_skip _ _ _ hskip]
      rw [contributingWallets_concat_skip rs r hskip] at h
      exact ih h

theorem breakdown_key_is_fetched (rs : List (String × OwnerEntry)) (w c : String)
    (h : c ∈ (((foldRecords AggState.empty rs).collectionBreakdown.get w).getD []).keys) :
    ∃ r ∈ rs, r.1 = c ∧ contributesTo w r = true := by
  rw [JSObject.mem_keys_iff, collectionBreakdown_get] at h
  obtain ⟨v, hv⟩ := h
  obtain ⟨r, hr, hc, hw, _⟩ := lastContribution_eq_some _ _ _ _ hv
  exact ⟨r, hr, hc, hw⟩

theorem breakdown_keys_length_le (provider : Provider) (fuel : Nat) (contracts : List String)
    (w : String) :
    (((foldRecords AggState.empty (fetchedRecords provider fuel contracts)).collectionBreakdown.get
      w).getD []).keys.length ≤ contracts.length := by
  apply List.Subperm.length_le
  apply List.subperm_of_subset (breakdown_keys_nodup _ w)
  intro c hc
  obtain ⟨r, hr, hrc, _⟩ := breakdown_key_is_fetched _ w c hc
  rw [← hrc]
  exact mem_fetchedRecords_fst provider fuel contracts r hr

/-! ## Claims on the entries of the result -/

/-- C15: in a run that answers with status 200, every key of every entry's `breakdown`
is a member of the normalised identifier list returned as `contracts`. -/
theorem breakdown_keys_are_requested_contracts (toLowerCase : String → String)
    (provider : Provider) (fuel : Nat) (req : Request) (resp : HandlerResponse)
    (hrun : (handler toLowerCase provider fuel req).response = some resp)
    (hok : resp.status = 200) :
    ∃ result contracts, resp.body.result = some result ∧
      resp.body.contracts = some contracts ∧
      ∀ e ∈ result, ∀ c ∈ e.breakdown.keys, c ∈ contracts := by
  rw [handler_success toLowerCase provider fuel req resp hrun hok]
  refine ⟨_, _, rfl, rfl, ?_⟩
  intro e he c hc
  rw [(mem_sorted_foldRecords _ _ e he).2.2] at hc
  obtain ⟨r, hr, hrc, _⟩ := breakdown_key_is_fetched _ _ c hc
  rw [← hrc]
  exact mem_fetchedRecords_fst provider fuel _ r hr

/-- C15 at the example: the hypotheses hold for the two-collection provider. -/
theorem breakdown_keys_are_requested_contracts_witness :
    (handler asciiLowerCase exampleProvider 3 exampleRequest).response = some exampleResponse ∧
    exampleResponse.status = 200 ∧
    ∃ result contracts, exampleResponse.body.result = some result ∧
      exampleResponse.body.contracts = some contracts ∧
      ∀ e ∈ result, ∀ c ∈ e.breakdown.keys, c ∈ contracts :=
  ⟨by rfl, by rfl,
    breakdown_keys_are_requested_contracts asciiLowerCase exampleProvider 3 exampleRequest
      exampleResponse (by rfl) (by rfl)⟩

/-- C16: in a run that answers with status 200, the `collectionsOwned` of every entry is
a numerator (the number of keys of its `breakdown`), a slash and a denominator; the
numerator is at most the denominator, and the denominator is the `totalContracts` of the
response. -/
theorem collectionsOwned_numerator_le_denominator (toLowerCase : String → String)
    (provider : Provider) (fuel : Nat) (req : Request) (resp : HandlerResponse)
    (hrun : (handler toLowerCase provider fuel req).response = some resp)
    (hok : resp.status = 200) :
    ∃ result n, resp.body.result = some result ∧ resp.body.totalContracts = some n ∧
      ∀ e ∈ result,
        e.collectionsOwned = toString e.breakdown.keys.length ++ "/" ++ toString n ∧
        e.breakdown.keys.length ≤ n := by
  rw [handler_success toLowerCase provider fuel req resp hrun hok]
  refine ⟨_, _, rfl, rfl, ?_⟩
  intro e he
  obtain ⟨p, _, rfl⟩ := (mem_sorted _ _ _).mp he
  exact ⟨rfl, breakdown_keys_length_le provider fuel _ _⟩

/-- C16 at the example: the hypotheses hold for the two-collection provider. -/
theorem collectionsOwned_numerator_le_denominator_witness :
    (handler asciiLowerCase exampleProvider 3 exampleRequest).response = some exampleResponse ∧
    exampleResponse.status = 200 ∧
    ∃ result n, exampleResponse.body.result = some result ∧
      exampleResponse.body.totalContracts = some n ∧
      ∀ e ∈ result,
        e.collectionsOwned = toString e.breakdown.keys.length ++ "/" ++ toString n ∧
        e.breakdown.keys.length ≤ n :=
  ⟨by rfl, by rfl,
    collectionsOwned_numerator_le_denominator asciiLowerCase exampleProvider 3 exampleRequest
      exampleResponse (by rfl) (by rfl)⟩

/-- C17: in a run that answers with status 200, the `collectionsOwned` of every entry is
the text `k/n`, with `k` the number of distinct keys of the entry's `breakdown` and `n`
the number of normalised collections, and the entry's `breakdown` is the map the fetch
loops accumulated for that wallet in `collectionBreakdown`. -/
theorem collectionsOwned_counts_breakdown_keys (toLowerCase : String → String)
    (provider : Provider) (fuel : Nat) (req : Request) (resp : HandlerResponse)
    (hrun : (handler toLowerCase provider fuel req).response = some resp)
    (hok : resp.status = 200) :
    ∃ result cs st, resp.body.result = some result ∧ req.contracts = some cs ∧
      (contractsLoop provider fuel (uniqueContracts toLowerCase cs) AggState.empty).outcome =
        Outcome.completed st ∧
      ∀ e ∈ result,
        e.collectionsOwned =
          toString e.breakdown.keys.toFinset.card ++ "/" ++
            toString (uniqueContracts toLowerCase cs).length ∧
        e.breakdown.keys.Nodup ∧
        st.collectionBreakdown.get e.wallet = some e.breakdown := by
  obtain ⟨cs, st, hcs, hloop, hresp⟩ :=
    handler_success_state toLowerCase provider fuel req resp hrun hok
  have hst := contractsLoop_completed provider fuel _ _ _ hloop
  refine ⟨sorted st (uniqueContracts toLowerCase cs).length, cs, st, by rw [hresp]; rfl, hcs,
    hloop, ?_⟩
  intro e he
  rw [hst] at he ⊢
  obtain ⟨hw, _, hb⟩ := mem_sorted_foldRecords _ _ e he
  have hnd : e.breakdown.keys.Nodup := by
    rw [hb]
    exact breakdown_keys_nodup _ _
  refine ⟨?_, hnd, ?_⟩
  · rw [List.toFinset_card_of_nodup hnd]
    obtain ⟨p, _, rfl⟩ := (mem_sorted _ _ _).mp he
    rfl
  · obtain ⟨b, hbs⟩ := collectionBreakdown_isSome _ _ hw
    rw [hb, hbs]
    rfl

/-- C17 at the example: the hypotheses hold for the two-collection provider. -/
theorem collectionsOwned_counts_breakdown_keys_witness :
    (handler asciiLowerCase exampleProvider 3 exampleRequest).response = some exampleResponse ∧
    exampleResponse.status = 200 ∧
    ∃ result cs st, exampleResponse.body.result = some result ∧
      exampleRequest.contracts = some cs ∧
      (contractsLoop exampleProvider 3 (uniqueContracts asciiLowerCase cs)
        AggState.empty).outcome = Outcome.completed st ∧
      ∀ e ∈ result,
        e.collectionsOwned =
          toString e.breakdown.keys.toFinset.card ++ "/" ++
            toString (uniqueContracts asciiLowerCase cs).length ∧
        e.breakdown.keys.Nodup ∧
        st.collectionBreakdown.get e.wallet = some e.breakdown :=
  ⟨by rfl, by rfl,
    collectionsOwned_counts_breakdown_keys asciiLowerCase exampleProvider 3 exampleRequest
      exampleResponse (by rfl) (by rfl)⟩

/-! ## Blank collection lists -/

theorem trim_of_all_whiteSpace (s : String)
    (h : ∀ ch ∈ s.data, isJsWhiteSpace ch = true) : trim s = "" := by
  have hd : s.data.dropWhile isJsWhiteSpace = [] := List.dropWhile_eq_nil_iff.mpr h
  unfold trim
  rw [hd]
  rfl

theorem uniqueContracts_eq_nil (toLowerCase : String → String)
    (contracts : List (Option String))
    (h : ∀ c ∈ contracts, normalForm toLowerCase c = "") :
    uniqueContracts toLowerCase contracts = [] := by
  rw [List.eq_nil_iff_forall_not_mem]
  intro a ha
  obtain ⟨hne, c, hc, rfl⟩ := (mem_uniqueContracts toLowerCase contracts _).mp ha
  exact hne (h c hc)

/-- C28: a POST request whose `contracts` is a non-empty array of entries that are all
null, empty or white space only is not rejected: the handler issues no page fetch and
answers with status 200, `result = []`, `contracts = []` and `totalContracts = 0`. The
lower-casing built-in is any function that maps the empty string to itself. -/
theorem blank_contracts_answered_with_empty_success (toLowerCase : String → String)
    (provider : Provider) (fuel : Nat) (req : Request) (cs : List (Option String))
    (hlower : toLowerCase "" = "")
    (hm : req.method = "POST") (hc : req.contracts = some cs) (hne : cs ≠ [])
    (hblank : ∀ c ∈ cs, c = none ∨
      ∃ s, c = some s ∧ ∀ ch ∈ s.data, isJsWhiteSpace ch = true) :
    handler toLowerCase provider fuel req =
      { fetches := [],
        response := some
          { status := 200,
            body := { error := none,
                      result := some [],
                      contracts := some [],
                      totalContracts := some 0 } } } := by
  have hnil : uniqueContracts toLowerCase cs = [] := by
    apply uniqueContracts_eq_nil
    intro c hcmem
    rcases hblank c hcmem with h | ⟨s, h, hs⟩
    · subst h
      have : trim "" = "" := by rfl
      simp only [normalForm, Option.getD_none, this, hlower]
    · subst h
      simp only [normalForm, Option.getD_some, trim_of_all_whiteSpace s hs, hlower]
  unfold handler
  rw [if_neg (not_not.mpr hm), hc]
  cases cs with
  | nil => exact absurd rfl hne
  | cons c cs =>
    simp only [hnil]
    rfl

/-- C28 at an array holding null, the empty string and a string of spaces and tabs. -/
theorem blank_contracts_answered_with_empty_success_witness :
    asciiLowerCase "" = "" ∧
    handler asciiLowerCase exampleProvider 3
        { method := "POST", contracts := some [none, some "", some " \t "] } =
      { fetches := [],
        response := some
          { status := 200,
            body := { error := none,
                      result := some [],
                      contracts := some [],
                      totalContracts := some 0 } } } :=
  ⟨by rfl,
    blank_contracts_answered_with_empty_success asciiLowerCase exampleProvider 3
      { method := "POST", contracts := some [none, some "", some " \t "] }
      [none, some "", some " \t "] (by rfl) rfl rfl (by decide) (by decide)⟩

/-! ## Fuel and termination of the loops -/

theorem chainEnds_mono (provider : Provider) (contract : String) (fuel : Nat)
    (pageKey : Option String) (h : chainEnds provider contract fuel pageKey = true)
    (fuel' : Nat) (hle : fuel ≤ fuel') :
    chainEnds provider contract fuel' pageKey = true ∧
      pageChain provider contract fuel' pageKey = pageChain provider contract fuel pageKey := by
  induction fuel generalizing pageKey fuel' with
  | zero => simp [chainEnds] at h
  | succ fuel ih =>
    cases fuel' with
    | zero => omega
    | succ fuel' =>
      unfold chainEnds at h ⊢
      unfold pageChain
      cases hp : provider (mkRequest contract pageKey) with
      | notOk status text => simp [hp] at h
      | ok data =>
        simp only [hp] at h ⊢
        by_cases hk : truthy data.pageKey = true
        · rw [if_pos hk] at h
          obtain ⟨h1, h2⟩ := ih _ h fuel' (by omega)
          rw [if_pos hk, if_pos hk, if_pos hk, h1, h2]
          exact ⟨rfl, rfl⟩
        · rw [if_neg hk, if_neg hk, if_neg hk]
          exact ⟨rfl, rfl⟩

theorem pageLoop_of_chainEnds (provider : Provider) (contract : String) (fuel : Nat)
    (pageKey : Option String) (st : AggState)
    (h : chainEnds provider contract fuel pageKey = true) :
    (pageLoop provider contract fuel pageKey st).outcome =
        Outcome.completed (foldRecords st
          ((pageChain provider contract fuel pageKey).flatMap (pageRecords contract))) ∧
      (pageLoop provider contract fuel pageKey st).fetches.length =
        (pageChain provider contract fuel pageKey).length := by
  induction fuel generalizing pageKey st with
  | zero => simp [chainEnds] at h
  | succ fuel ih =>
    unfold chainEnds at h
    unfold pageLoop pageChain
    cases hp : provider (mkRequest contract pageKey) with
    | notOk status text => simp [hp] at h
    | ok data =>
      simp only [hp] at h ⊢
      by_cases hk : truthy data.pageKey = true
      · rw [if_pos hk] at h
        obtain ⟨h1, h2⟩ := ih data.pageKey (foldPage contract st data) h
        rw [if_pos hk, if_pos hk]
        rw [foldPage_eq] at h1 h2
        simp only [h1, List.flatMap_cons, foldRecords_append, foldPage_eq, List.length_cons, h2,
          and_self]
      · rw [if_neg hk, if_neg hk]
        simp only [List.flatMap_cons, List.flatMap_nil, List.append_nil, foldPage_eq,
          List.length_singleton, and_self]

theorem contractsLoop_of_chainEnds (provider : Provider) (fuel : Nat) (contracts : List String)
    (st : AggState) (h : ∀ c ∈ contracts, chainEnds provider c fuel none = true) :
    (contractsLoop provider fuel contracts st).outcome =
      Outcome.completed (foldRecords st (fetchedRecords provider fuel contracts)) := by
  induction contracts generalizing st with
  | nil => simp [contractsLoop, fetchedRecords, foldRecords]
  | cons c cs ih =>
    have h1 := (pageLoop_of_chainEnds provider c fuel none st (h c (List.mem_cons_self _ _))).1
    rw [contractsLoop_cons_completed provider fuel c cs st _ h1]
    simp only [ih _ (fun c' hc' => h c' (List.mem_cons_of_mem _ hc')), fetchedRecords,
      collectionRecords, List.flatMap_cons, foldRecords_append]

theorem exists_common_fuel (provider : Provider) (contracts : List String)
    (h : ∀ c ∈ contracts, ∃ n, chainEnds provider c n none = true) :
    ∃ fuel, ∀ c ∈ contracts, chainEnds provider c fuel none = true := by
  induction contracts with
  | nil => exact ⟨0, by simp⟩
  | cons c cs ih =>
    obtain ⟨n, hn⟩ := h c (List.mem_cons_self _ _)
    obtain ⟨m, hm⟩ := ih (fun c' hc' => h c' (List.mem_cons_of_mem _ hc'))
    refine ⟨max n m, ?_⟩
    intro c' hc'
    rcases List.mem_cons.mp hc' with rfl | hmem
    · exact (chainEnds_mono provider c' n none hn _ (le_max_left _ _)).1
    · exact (chainEnds_mono provider c' m none (hm c' hmem) _ (le_max_right _ _)).1

theorem pageLoop_endless (contract : String) (fuel : Nat) (pageKey : Option String)
    (st : AggState) :
    (pageLoop endlessProvider contract fuel pageKey st).outcome = Outcome.pending := by
  induction fuel generalizing pageKey st with
  | zero => rfl
  | succ fuel ih =>
    unfold pageLoop
    have hk : truthy (some "next") = true := by decide
    simp only [endlessProvider, hk, if_true]
    exact ih _ _

theorem contractsLoop_endless (fuel : Nat) (contracts : List String) (st : AggState)
    (hne : contracts ≠ []) :
    (contractsLoop endlessProvider fuel contracts st).outcome = Outcome.pending := by
  cases contracts with
  | nil => exact absurd rfl hne
  | cons c cs =>
    rw [contractsLoop_cons_stopped endlessProvider fuel c cs st
      (by intro st'; rw [pageLoop_endless]; exact Outcome.noConfusion)]
    exact pageLoop_endless c fuel none st

theorem handler_of_outcome (toLowerCase : String → String) (provider : Provider) (fuel : Nat)
    (req : Request) (hm : req.method = "POST")
    (hne : requestedContracts toLowerCase req ≠ []) :
    handler toLowerCase provider fuel req =
      { fetches := (contractsLoop provider fuel (requestedContracts toLowerCase req)
          AggState.empty).fetches,
        response :=
          match (contractsLoop provider fuel (requestedContracts toLowerCase req)
              AggState.empty).outcome with
          | Outcome.completed st =>
            some (successResponse st (requestedContracts toLowerCase req))
          | Outcome.returned resp => some resp
          | Outcome.pending => none } := by
  unfold handler
  rw [if_neg (not_not.mpr hm)]
  cases hc : req.contracts with
  | none =>
    exact absurd (by simp [requestedContracts, hc, uniqueContracts, setFromArray]) hne
  | some l =>
    cases l with
    | nil => exact absurd (by simp [requestedContracts, hc, uniqueContracts, setFromArray]) hne
    | cons c cs =>
      have hreq : requestedContracts toLowerCase req = uniqueContracts toLowerCase (c :: cs) := by
        simp [requestedContracts, hc]
      rw [hreq]
      simp only
      cases (contractsLoop provider fuel (uniqueContracts toLowerCase (c :: cs))
          AggState.empty).outcome <;> rfl

theorem handler_endless (toLowerCase : String → String) (fuel : Nat) (req : Request)
    (hm : req.method = "POST") (hne : requestedContracts toLowerCase req ≠ []) :
    (handler toLowerCase endlessProvider fuel req).response = none := by
  rw [handler_of_outcome toLowerCase endlessProvider fuel req hm hne,
    contractsLoop_endless fuel _ _ hne]

theorem pageChain_endless (contract : String) (fuel : Nat) (pageKey : Option String) :
    ∀ d ∈ pageChain endlessProvider contract fuel pageKey, d.ownerAddresses = some [] := by
  induction fuel generalizing pageKey with
  | zero => simp [pageChain]
  | succ fuel ih =>
    unfold pageChain
    have hk : truthy (some "next") = true := by decide
    simp only [endlessProvider, hk, if_true, List.mem_cons]
    rintro d (rfl | hd)
    · rfl
    · exact ih _ d hd

theorem fetchedRecords_endless (fuel : Nat) (contracts : List String) :
    fetchedRecords endlessProvider fuel contracts = [] := by
  rw [List.eq_nil_iff_forall_not_mem]
  intro r hr
  simp only [fetchedRecords, collectionRecords, List.mem_flatMap] at hr
  obtain ⟨c, _, d, hd, hmem⟩ := hr
  have := pageChain_endless c fuel none d hd
  simp [pageRecords, this] at hmem

theorem sorted_eq_nil_of_no_positive (rs : List (String × OwnerEntry)) (n : Nat)
    (h : ∀ r ∈ rs, ¬ 0 < sumForThisContract r.2) :
    sorted (foldRecords AggState.empty rs) n = [] := by
  rw [List.eq_nil_iff_forall_not_mem]
  intro e he
  obtain ⟨r, hr, hc⟩ := (mem_contributingWallets _ _).mp (mem_sorted_foldRecords rs n e he).1
  exact h r hr ((contributesTo_iff _ _).mp hc).2

theorem contractsLoop_fetch_contract (provider : Provider) (fuel : Nat)
    (contracts : List String) (st : AggState) :
    ∀ x ∈ (contractsLoop provider fuel contracts st).fetches, x.contractAddress ∈ contracts := by
  induction contracts generalizing st with
  | nil => simp [contractsLoop]
  | cons c cs ih =>
    intro x hx
    by_cases hc : ∃ st', (pageLoop provider c fuel none st).outcome = Outcome.completed st'
    · obtain ⟨st', hst⟩ := hc
      rw [contractsLoop_cons_completed provider fuel c cs st st' hst] at hx
      rcases List.mem_append.mp hx with h1 | h1
      · rw [pageLoop_fetch_contract provider c fuel none st x h1]
        exact List.mem_cons_self _ _
      · exact List.mem_cons_of_mem _ (ih st' x h1)
    · rw [contractsLoop_cons_stopped provider fuel c cs st (fun st' h => hc ⟨st', h⟩)] at hx
      rw [pageLoop_fetch_contract provider c fuel none st x hx]
      exact List.mem_cons_self _ _

theorem contractsLoop_fetch_count (provider : Provider) (fuel : Nat) (contracts : List String)
    (st : AggState) (hends : ∀ c ∈ contracts, chainEnds provider c fuel none = true)
    (hnd : contracts.Nodup) :
    ∀ c ∈ contracts,
      ((contractsLoop provider fuel contracts st).fetches.filter
        (fun rq => decide (rq.contractAddress = c))).length =
        (pageChain provider c fuel none).length := by
  induction contracts generalizing st with
  | nil => simp
  | cons c0 cs ih =>
    obtain ⟨h1, h2⟩ := pageLoop_of_chainEnds provider c0 fuel none st
      (hends c0 (List.mem_cons_self _ _))
    obtain ⟨hnot, hnd'⟩ := List.nodup_cons.mp hnd
    rw [contractsLoop_cons_completed provider fuel c0 cs st _ h1]
    intro c hc
    simp only [List.filter_append, List.length_append]
    rcases List.mem_cons.mp hc with rfl | hmem
    · have hall : (pageLoop provider c fuel none st).fetches.filter
          (fun rq => decide (rq.contractAddress = c)) =
          (pageLoop provider c fuel none st).fetches := by
        rw [List.filter_eq_self]
        intro x hx
        simpa using pageLoop_fetch_contract provider c fuel none st x hx
      have hnone : (contractsLoop provider fuel cs (foldRecords st
          ((pageChain provider c fuel none).flatMap (pageRecords c)))).fetches.filter
          (fun rq => decide (rq.contractAddress = c)) = [] := by
        rw [List.filter_eq_nil_iff]
        intro x hx hxc
        have := contractsLoop_fetch_contract provider fuel cs _ x hx
        rw [decide_eq_true_eq] at hxc
        exact hnot (hxc ▸ this)
      rw [hall, hnone, h2]
      rfl
    · have hne : c0 ≠ c := fun h => hnot (h ▸ hmem)
      have hnone : (pageLoop provider c0 fuel none st).fetches.filter
          (fun rq => decide (rq.contractAddress = c)) = [] := by
        rw [List.filter_eq_nil_iff]
        intro x hx hxc
        rw [decide_eq_true_eq, pageLoop_fetch_contract provider c0 fuel none st x hx] at hxc
        exact hne hxc
      rw [hnone, ih _ (fun c' hc' => hends c' (List.mem_cons_of_mem _ hc')) hnd' c hmem]
      simp

theorem fetchedRecords_scenarioE (contracts : List String) (fuel : Nat) :
    ∀ r ∈ fetchedRecords scenarioEProvider fuel contracts, ¬ 0 < sumForThisContract r.2 := by
  intro r hr
  simp only [fetchedRecords, collectionRecords, List.mem_flatMap] at hr
  obtain ⟨c, _, d, hd, hmem⟩ := hr
  have hd' : d = { ownerAddresses := some [exampleEntry "0xw1" [0, 0]], pageKey := none } := by
    cases fuel with
    | zero => simp [pageChain] at hd
    | succ fuel =>
      have hk : truthy (none : Option String) = false := rfl
      simpa [pageChain, scenarioEProvider, hk] using hd
  subst hd'
  simp only [pageRecords, Option.getD_some, List.map_cons, List.map_nil,
    List.mem_singleton] at hmem
  subst hmem
  have : sumForThisContract (exampleEntry "0xw1" [0, 0]) = 0 := by decide
  simp [this]

/-! ## Claims on termination -/

/-- C21, as stated, fails: against a provider whose every fetch succeeds and whose
pages hold no record at all but always a further cursor, the handler has no response
for any number of pages it is allowed to fetch. -/
theorem empty_result_counterexample :
    requestedContracts asciiLowerCase exampleRequest ≠ [] ∧
    (∀ rq, succeeds endlessProvider rq) ∧
    (∀ fuel, ∀ r ∈ fetchedRecords endlessProvider fuel
        (requestedContracts asciiLowerCase exampleRequest), ¬ 0 < sumForThisContract r.2) ∧
    ∀ fuel, (handler asciiLowerCase endlessProvider fuel exampleRequest).response = none := by
  refine ⟨by decide, fun rq => ⟨_, rfl⟩, ?_, ?_⟩
  · intro fuel r hr
    rw [fetchedRecords_endless] at hr
    exact absurd hr (List.not_mem_nil _)
  · intro fuel
    exact handler_endless asciiLowerCase fuel exampleRequest rfl (by decide)

/-- C21, amended: for a POST request with a non-empty normalised collection list and a
provider in which the cursor chain of every requested collection ends after finitely
many successful pages and no record has a positive balance sum, the handler, once
allowed enough pages, answers with status 200 and `result` equal to the empty list. -/
theorem empty_result_is_success (toLowerCase : String → String) (provider : Provider)
    (req : Request) (hm : req.method = "POST")
    (hne : requestedContracts toLowerCase req ≠ [])
    (hends : ∀ c ∈ requestedContracts toLowerCase req,
      ∃ n, chainEnds provider c n none = true)
    (hnone : ∀ fuel, ∀ r ∈ fetchedRecords provider fuel (requestedContracts toLowerCase req),
      ¬ 0 < sumForThisContract r.2) :
    ∃ fuel0, ∀ fuel, fuel0 ≤ fuel →
      (handler toLowerCase provider fuel req).response =
        some { status := 200,
               body := { error := none,
                         result := some [],
                         contracts := some (requestedContracts toLowerCase req),
                         totalContracts := some (requestedContracts toLowerCase req).length } } := by
  obtain ⟨fuel0, h0⟩ := exists_common_fuel provider _ hends
  refine ⟨fuel0, ?_⟩
  intro fuel hle
  have hall : ∀ c ∈ requestedContracts toLowerCase req, chainEnds provider c fuel none = true :=
    fun c hc => (chainEnds_mono provider c fuel0 none (h0 c hc) fuel hle).1
  rw [handler_of_outcome toLowerCase provider fuel req hm hne,
    contractsLoop_of_chainEnds provider fuel _ _ hall]
  simp only [successResponse, sorted_eq_nil_of_no_positive _ _ (hnone fuel)]

/-- C21, amended, at scenario E: both requested collections have one page, holding a
wallet whose balances are zero. -/
theorem empty_result_is_success_witness :
    exampleRequest.method = "POST" ∧
    requestedContracts asciiLowerCase exampleRequest ≠ [] ∧
    (∀ c ∈ requestedContracts asciiLowerCase exampleRequest,
      ∃ n, chainEnds scenarioEProvider c n none = true) ∧
    (∀ fuel, ∀ r ∈ fetchedRecords scenarioEProvider fuel
        (requestedContracts asciiLowerCase exampleRequest), ¬ 0 < sumForThisContract r.2) ∧
    ∃ fuel0, ∀ fuel, fuel0 ≤ fuel →
      (handler asciiLowerCase scenarioEProvider fuel exampleRequest).response =
        some { status := 200,
               body := { error := none,
                         result := some [],
                         contracts := some (requestedContracts asciiLowerCase exampleRequest),
                         totalContracts :=
                           some (requestedContracts asciiLowerCase exampleRequest).length } } :=
  ⟨rfl, by decide, fun _ _ => ⟨1, rfl⟩, fetchedRecords_scenarioE _,
    empty_result_is_success asciiLowerCase scenarioEProvider exampleRequest rfl (by decide)
      (fun _ _ => ⟨1, rfl⟩) (fetchedRecords_scenarioE _)⟩

/-- C25: for a POST request and a provider in which, for each requested collection,
following the returned cursors from the first page reaches a page with an absent or
empty cursor after finitely many pages, the handler responds once it is allowed enough
pages, having issued for each collection as many fetches as its chain has pages.
Without the precondition the loop need not end: against the endless provider the
handler has no response however many pages it is allowed. -/
theorem fetch_loop_terminates (toLowerCase : String → String) (provider : Provider)
    (req : Request) (hm : req.method = "POST")
    (hends : ∀ c ∈ requestedContracts toLowerCase req,
      ∃ n, chainEnds provider c n none = true) :
    (∃ fuel0, ∀ fuel, fuel0 ≤ fuel →
      (∃ resp, (handler toLowerCase provider fuel req).response = some resp) ∧
      ∀ c ∈ requestedContracts toLowerCase req, ∀ n, chainEnds provider c n none = true →
        ((handler toLowerCase provider fuel req).fetches.filter
          (fun rq => decide (rq.contractAddress = c))).length =
          (pageChain provider c n none).length) ∧
    ∀ fuel, (handler asciiLowerCase endlessProvider fuel exampleRequest).response = none := by
  refine ⟨?_, fun fuel => handler_endless asciiLowerCase fuel exampleRequest rfl (by decide)⟩
  obtain ⟨fuel0, h0⟩ := exists_common_fuel provider _ hends
  refine ⟨fuel0, ?_⟩
  intro fuel hle
  have hall : ∀ c ∈ requestedContracts toLowerCase req, chainEnds provider c fuel none = true :=
    fun c hc => (chainEnds_mono provider c fuel0 none (h0 c hc) fuel hle).1
  by_cases hne : requestedContracts toLowerCase req = []
  · constructor
    · unfold handler
      rw [if_neg (not_not.mpr hm)]
      cases hc : req.contracts with
      | none => exact ⟨_, rfl⟩
      | some l =>
        cases l with
        | nil => exact ⟨_, rfl⟩
        | cons c cs =>
          have hreq : uniqueContracts toLowerCase (c :: cs) = [] := by
            simpa [requestedContracts, hc] using hne
          simp only [hreq]
          exact ⟨_, rfl⟩
    · intro c hc
      rw [hne] at hc
      exact absurd hc (List.not_mem_nil _)
  · rw [handler_of_outcome toLowerCase provider fuel req hm hne,
      contractsLoop_of_chainEnds provider fuel _ _ hall]
    refine ⟨⟨_, rfl⟩, ?_⟩
    intro c hc n hn
    simp only
    rw [contractsLoop_fetch_count provider fuel _ _ hall (uniqueContracts_nodup _ _) c hc]
    rw [← (chainEnds_mono provider c n none hn (max n fuel) (le_max_left _ _)).2,
      ← (chainEnds_mono provider c fuel none (hall c hc) (max n fuel) (le_max_right _ _)).2]

theorem exampleProvider_chains_end :
    ∀ c ∈ requestedContracts asciiLowerCase exampleRequest,
      ∃ n, chainEnds exampleProvider c n none = true := by
  have h : ∀ c ∈ requestedContracts asciiLowerCase exampleRequest,
      chainEnds exampleProvider c 3 none = true := by decide
  exact fun c hc => ⟨3, h c hc⟩

/-- C25 at the example: `0xaa` has a chain of two pages and `0xbb` of one. -/
theorem fetch_loop_terminates_witness :
    exampleRequest.method = "POST" ∧
    (∀ c ∈ requestedContracts asciiLowerCase exampleRequest,
      ∃ n, chainEnds exampleProvider c n none = true) ∧
    ((∃ fuel0, ∀ fuel, fuel0 ≤ fuel →
      (∃ resp, (handler asciiLowerCase exampleProvider fuel exampleRequest).response =
        some resp) ∧
      ∀ c ∈ requestedContracts asciiLowerCase exampleRequest,
        ∀ n, chainEnds exampleProvider c n none = true →
        ((handler asciiLowerCase exampleProvider fuel exampleRequest).fetches.filter
          (fun rq => decide (rq.contractAddress = c))).length =
          (pageChain exampleProvider c n none).length) ∧
    ∀ fuel, (handler asciiLowerCase endlessProvider fuel exampleRequest).response = none) :=
  ⟨rfl, exampleProvider_chains_end,
    fetch_loop_terminates asciiLowerCase exampleProvider exampleRequest rfl
      exampleProvider_chains_end⟩

/-! ## The cursor protocol -/

theorem mkRequest_none (contract : String) :
    mkRequest contract none = { contractAddress := contract, pageKey := none } := rfl

theorem mkRequest_of_truthy (contract : String) (pageKey : Option String)
    (h : truthy pageKey = true) :
    mkRequest contract pageKey = { contractAddress := contract, pageKey := pageKey } := by
  simp [mkRequest, h]

theorem pageLoop_fetches_cons (provider : Provider) (contract : String) (fuel : Nat)
    (pageKey : Option String) (st : AggState) :
    ∃ rest, (pageLoop provider contract (fuel + 1) pageKey st).fetches =
      mkRequest contract pageKey :: rest := by
  unfold pageLoop
  cases hp : provider (mkRequest contract pageKey) with
  | notOk status text => exact ⟨[], rfl⟩
  | ok data =>
    simp only
    by_cases hk : truthy data.pageKey = true
    · rw [if_pos hk]
      exact ⟨_, rfl⟩
    · rw [if_neg hk]
      exact ⟨[], rfl⟩

theorem pageLoop_head (provider : Provider) (contract : String) (fuel : Nat)
    (pageKey : Option String) (st : AggState) (y : FetchRequest)
    (h : (pageLoop provider contract fuel pageKey st).fetches.head? = some y) :
    y = mkRequest contract pageKey := by
  cases fuel with
  | zero => simp [pageLoop] at h
  | succ fuel =>
    obtain ⟨rest, hrest⟩ := pageLoop_fetches_cons provider contract fuel pageKey st
    rw [hrest] at h
    simpa using h.symm

theorem pageLoop_chain (provider : Provider) (contracts : List String) (contract : String)
    (fuel : Nat) (pageKey : Option String) (st : AggState) :
    List.Chain' (followsInProtocol provider contracts)
      (pageLoop provider contract fuel pageKey st).fetches := by
  induction fuel generalizing pageKey st with
  | zero => simp [pageLoop]
  | succ fuel ih =>
    unfold pageLoop
    cases hp : provider (mkRequest contract pageKey) with
    | notOk status text => simp
    | ok data =>
      simp only
      by_cases hk : truthy data.pageKey = true
      · rw [if_pos hk]
        refine List.Chain'.cons' (ih _ _) ?_
        intro y hy
        have hy' := pageLoop_head provider contract fuel data.pageKey _ y hy
        refine ⟨data, hp, ?_⟩
        rw [if_pos hk, hy', mkRequest_of_truthy contract data.pageKey hk]
        rfl
      · rw [if_neg hk]
        simp

theorem pageLoop_completed_last (provider : Provider) (contract : String) (fuel : Nat)
    (pageKey : Option String) (st st' : AggState)
    (h : (pageLoop provider contract fuel pageKey st).outcome = Outcome.completed st') :
    ∃ rq data, (pageLoop provider contract fuel pageKey st).fetches.getLast? = some rq ∧
      provider rq = FetchResponse.ok data ∧ truthy data.pageKey = false ∧
      rq.contractAddress = contract := by
  induction fuel generalizing pageKey st with
  | zero => simp [pageLoop] at h
  | succ fuel ih =>
    unfold pageLoop at h ⊢
    cases hp : provider (mkRequest contract pageKey) with
    | notOk status text => simp [hp] at h
    | ok data =>
      simp only [hp] at h ⊢
      by_cases hk : truthy data.pageKey = true
      · rw [if_pos hk] at h ⊢
        obtain ⟨rq, d, hlast, hok, hkey, hc⟩ := ih _ _ h
        refine ⟨rq, d, ?_, hok, hkey, hc⟩
        simp only
        rw [List.getLast?_cons, hlast]
        rfl
      · rw [if_neg hk]
        exact ⟨_, data, rfl, hp, by simpa using hk, rfl⟩

theorem followsInProtocol_cons (provider : Provider) (c : String) (contracts : List String)
    (a b : FetchRequest) (h : followsInProtocol provider contracts a b) :
    followsInProtocol provider (c :: contracts) a b := by
  obtain ⟨data, hp, h⟩ := h
  refine ⟨data, hp, ?_⟩
  by_cases hk : truthy data.pageKey = true
  · rw [if_pos hk] at h ⊢
    exact h
  · rw [if_neg hk] at h ⊢
    obtain ⟨h1, before, after, h2⟩ := h
    exact ⟨h1, c :: before, after, by rw [h2]; rfl⟩

theorem contractsLoop_head (provider : Provider) (fuel : Nat) (contracts : List String)
    (st : AggState) (y : FetchRequest)
    (h : (contractsLoop provider fuel contracts st).fetches.head? = some y) :
    ∃ c cs, contracts = c :: cs ∧ y = { contractAddress := c, pageKey := none } := by
  cases contracts with
  | nil => simp [contractsLoop] at h
  | cons c cs =>
    refine ⟨c, cs, rfl, ?_⟩
    rw [← mkRequest_none]
    by_cases hc : ∃ st', (pageLoop provider c fuel none st).outcome = Outcome.completed st'
    · obtain ⟨st', hst⟩ := hc
      rw [contractsLoop_cons_completed provider fuel c cs st st' hst] at h
      obtain ⟨rq, _, hlast, _⟩ := pageLoop_completed_last provider c fuel none st st' hst
      have hne : (pageLoop provider c fuel none st).fetches ≠ [] := by
        intro hnil
        rw [hnil] at hlast
        simp at hlast
      simp only at h
      rw [List.head?_append_of_ne_nil _ hne] at h
      exact pageLoop_head provider c fuel none st y h
    · rw [contractsLoop_cons_stopped provider fuel c cs st (fun st' h => hc ⟨st', h⟩)] at h
      exact pageLoop_head provider c fuel none st y h

theorem contractsLoop_chain (provider : Provider) (fuel : Nat) (contracts : List String)
    (st : AggState) :
    List.Chain' (followsInProtocol provider contracts)
      (contractsLoop provider fuel contracts st).fetches := by
  induction contracts generalizing st with
  | nil => simp [contractsLoop]
  | cons c cs ih =>
    by_cases hc : ∃ st', (pageLoop provider c fuel none st).outcome = Outcome.completed st'
    · obtain ⟨st', hst⟩ := hc
      rw [contractsLoop_cons_completed provider fuel c cs st st' hst]
      simp only
      rw [List.chain'_append]
      refine ⟨pageLoop_chain provider _ c fuel none st,
        (ih st').imp (fun a b => followsInProtocol_cons provider c cs a b), ?_⟩
      intro x hx y hy
      obtain ⟨rq, data, hlast, hok, hkey, hrc⟩ :=
        pageLoop_completed_last provider c fuel none st st' hst
      rw [hlast] at hx
      have hxeq : x = rq := (Option.some.inj hx).symm
      subst hxeq
      obtain ⟨c2, cs', hcs, hy'⟩ := contractsLoop_head provider fuel cs st' y hy
      refine ⟨data, hok, ?_⟩
      rw [if_neg (by simp [hkey])]
      refine ⟨by rw [hy'], [], cs', ?_⟩
      rw [hrc, hy', hcs]
      rfl
    · rw [contractsLoop_cons_stopped provider fuel c cs st (fun st' h => hc ⟨st', h⟩)]
      exact pageLoop_chain provider _ c fuel none st

theorem contractsLoop_completed_first_pages (provider : Provider) (fuel : Nat)
    (contracts : List String) (st st' : AggState)
    (h : (contractsLoop provider fuel contracts st).outcome = Outcome.completed st') :
    ∀ c ∈ contracts, ({ contractAddress := c, pageKey := none } : FetchRequest) ∈
      (contractsLoop provider fuel contracts st).fetches := by
  induction contracts generalizing st with
  | nil => simp
  | cons c0 cs ih =>
    by_cases hc : ∃ st1, (pageLoop provider c0 fuel none st).outcome = Outcome.completed st1
    · obtain ⟨st1, hst⟩ := hc
      rw [contractsLoop_cons_completed provider fuel c0 cs st st1 hst] at h ⊢
      intro c hcm
      simp only [List.mem_append]
      rcases List.mem_cons.mp hcm with rfl | hmem
      · left
        cases fuel with
        | zero => simp [pageLoop] at hst
        | succ fuel =>
          obtain ⟨rest, hrest⟩ := pageLoop_fetches_cons provider c fuel none st
          rw [hrest, mkRequest_none]
          exact List.mem_cons_self _ _
      · exact Or.inr (ih st1 h c hmem)
    · have hc' : ∀ st1, (pageLoop provider c0 fuel none st).outcome ≠ Outcome.completed st1 :=
        fun st1 h => hc ⟨st1, h⟩
      rw [contractsLoop_cons_stopped provider fuel c0 cs st hc'] at h
      exact absurd h (hc' st')

theorem contractsLoop_completed_last (provider : Provider) (fuel : Nat)
    (contracts : List String) (st st' : AggState)
    (h : (contractsLoop provider fuel contracts st).outcome = Outcome.completed st')
    (rq : FetchRequest)
    (hlast : (contractsLoop provider fuel contracts st).fetches.getLast? = some rq) :
    ∃ data, provider rq = FetchResponse.ok data ∧ truthy data.pageKey = false := by
  induction contracts generalizing st with
  | nil => simp [contractsLoop] at hlast
  | cons c0 cs ih =>
    by_cases hc : ∃ st1, (pageLoop provider c0 fuel none st).outcome = Outcome.completed st1
    · obtain ⟨st1, hst⟩ := hc
      rw [contractsLoop_cons_completed provider fuel c0 cs st st1 hst] at h hlast
      simp only [List.getLast?_append] at hlast
      cases hl2 : (contractsLoop provider fuel cs st1).fetches.getLast? with
      | some rq2 =>
        rw [hl2] at hlast
        simp only [Option.or_some] at hlast
        exact ih st1 h (by rw [hl2, ← Option.some.inj hlast])
      | none =>
        rw [hl2] at hlast
        simp only [Option.none_or] at hlast
        obtain ⟨rq1, data, hlast1, hok, hkey, _⟩ :=
          pageLoop_completed_last provider c0 fuel none st st1 hst
        rw [hlast1] at hlast
        rw [← Option.some.inj hlast]
        exact ⟨data, hok, hkey⟩
    · have hc' : ∀ st1, (pageLoop provider c0 fuel none st).outcome ≠ Outcome.completed st1 :=
        fun st1 h => hc ⟨st1, h⟩
      rw [contractsLoop_cons_stopped provider fuel c0 cs st hc'] at h
      exact absurd h (hc' st')

theorem handler_success_fetches (toLowerCase : String → String) (provider : Provider)
    (fuel : Nat) (req : Request) (resp : HandlerResponse)
    (hrun : (handler toLowerCase provider fuel req).response = some resp)
    (hok : resp.status = 200) :
    ∃ st, (contractsLoop provider fuel (requestedContracts toLowerCase req)
        AggState.empty).outcome = Outcome.completed st ∧
      (handler toLowerCase provider fuel req).fetches =
        (contractsLoop provider fuel (requestedContracts toLowerCase req)
          AggState.empty).fetches := by
  obtain ⟨cs, st, hcs, hloop, _⟩ :=
    handler_success_state toLowerCase provider fuel req resp hrun hok
  have hreq : requestedContracts toLowerCase req = uniqueContracts toLowerCase cs := by
    simp [requestedContracts, hcs]
  rw [hreq]
  refine ⟨st, hloop, ?_⟩
  have hm : req.method = "POST" := by
    by_contra hm
    unfold handler at hrun
    rw [if_pos hm] at hrun
    simp only [Option.some.injEq] at hrun
    rw [← hrun] at hok
    simp at hok
  have hne : cs ≠ [] := by
    intro hnil
    subst hnil
    unfold handler at hrun
    rw [if_neg (not_not.mpr hm), hcs] at hrun
    simp only [Option.some.injEq] at hrun
    rw [← hrun] at hok
    simp at hok
  rw [handler_fetches_eq, if_pos ⟨hm, by simpa [hcs] using hne⟩, hreq]

/-- C22: the first fetch of a run asks the first collection of the normalised list with
no cursor; every fetch that has a successor succeeded, and its successor asks the same
collection with exactly the cursor its page returned when that cursor is present, and
the next collection of the list with no cursor when the cursor is absent or empty; in
a run that answers with status 200 the first page of every collection is requested
with no cursor and the last fetch returned an absent or empty cursor. -/
theorem cursor_protocol (toLowerCase : String → String) (provider : Provider) (fuel : Nat)
    (req : Request) :
    (∀ rq, (handler toLowerCase provider fuel req).fetches.head? = some rq →
      ∃ c cs, requestedContracts toLowerCase req = c :: cs ∧
        rq = { contractAddress := c, pageKey := none }) ∧
    List.Chain' (followsInProtocol provider (requestedContracts toLowerCase req))
      (handler toLowerCase provider fuel req).fetches ∧
    (∀ resp, (handler toLowerCase provider fuel req).response = some resp →
      resp.status = 200 →
      (∀ c ∈ requestedContracts toLowerCase req,
        ({ contractAddress := c, pageKey := none } : FetchRequest) ∈
          (handler toLowerCase provider fuel req).fetches) ∧
      ∀ rq, (handler toLowerCase provider fuel req).fetches.getLast? = some rq →
        ∃ data, provider rq = FetchResponse.ok data ∧ truthy data.pageKey = false) := by
  refine ⟨?_, ?_, ?_⟩
  · intro rq hrq
    rw [handler_fetches_eq] at hrq
    by_cases h : req.method = "POST" ∧ req.contracts.getD [] ≠ []
    · rw [if_pos h] at hrq
      exact contractsLoop_head provider fuel _ _ rq hrq
    · rw [if_neg h] at hrq
      simp at hrq
  · rw [handler_fetches_eq]
    by_cases h : req.method = "POST" ∧ req.contracts.getD [] ≠ []
    · rw [if_pos h]
      exact contractsLoop_chain provider fuel _ _
    · rw [if_neg h]
      exact List.chain'_nil
  · intro resp hrun hok
    obtain ⟨st, hloop, hf⟩ := handler_success_fetches toLowerCase provider fuel req resp hrun hok
    rw [hf]
    exact ⟨contractsLoop_completed_first_pages provider fuel _ _ st hloop,
      fun rq hrq => contractsLoop_completed_last provider fuel _ _ st hloop rq hrq⟩

/-- C22 at the example: two pages of `0xaa` linked by the cursor `p2`, then `0xbb`. -/
theorem cursor_protocol_witness :
    (handler asciiLowerCase exampleProvider 3 exampleRequest).fetches =
      [{ contractAddress := "0xaa", pageKey := none },
       { contractAddress := "0xaa", pageKey := some "p2" },
       { contractAddress := "0xbb", pageKey := none }] ∧
    (handler asciiLowerCase exampleProvider 3 exampleRequest).response = some exampleResponse ∧
    exampleResponse.status = 200 ∧
    (∀ c ∈ requestedContracts asciiLowerCase exampleRequest,
      ({ contractAddress := c, pageKey := none } : FetchRequest) ∈
        (handler asciiLowerCase exampleProvider 3 exampleRequest).fetches) ∧
    ∀ rq, (handler asciiLowerCase exampleProvider 3 exampleRequest).fetches.getLast? = some rq →
      ∃ data, exampleProvider rq = FetchResponse.ok data ∧ truthy data.pageKey = false :=
  ⟨by rfl, by rfl, by rfl,
    (cursor_protocol asciiLowerCase exampleProvider 3 exampleRequest).2.2 exampleResponse
      (by rfl) (by rfl)⟩

/-! ## Address extraction -/

theorem toUpper_toNat (c : Char) :
    (Char.toUpper c).toNat = if 97 ≤ c.toNat ∧ c.toNat ≤ 122 then c.toNat - 32 else c.toNat := by
  have hc : c = Char.ofNat c.toNat := (Char.ofNat_toNat c).symm
  unfold Char.toUpper
  by_cases h : 97 ≤ c.toNat ∧ c.toNat ≤ 122
  · simp only [ge_iff_le, h, and_self, if_true]
    obtain ⟨h1, h2⟩ := h
    generalize c.toNat = n at h1 h2
    interval_cases n <;> rfl
  · simp only [ge_iff_le, h, if_false]

theorem char_eq_of_toNat_eq (a b : Char) (h : a.toNat = b.toNat) : a = b := by
  rw [← Char.ofNat_toNat a, ← Char.ofNat_toNat b, h]

theorem eq_zero_of_toUpper (c : Char) (h : Char.toUpper c = '0') : c = '0' := by
  have h1 := toUpper_toNat c
  rw [h] at h1
  by_cases hr : 97 ≤ c.toNat ∧ c.toNat ≤ 122
  · rw [if_pos hr] at h1
    have : ('0' : Char).toNat = 48 := rfl
    omega
  · rw [if_neg hr] at h1
    exact char_eq_of_toNat_eq _ _ h1.symm

theorem matchHexDigits_some (n : Nat) (text hs rest : List Char)
    (h : matchHexDigits n text = some (hs, rest)) :
    text = hs ++ rest ∧ hs.length = n ∧ ∀ c ∈ hs, isHexDigit c = true := by
  induction n generalizing text hs with
  | zero =>
    simp only [matchHexDigits, Option.some.injEq, Prod.mk.injEq] at h
    obtain ⟨rfl, rfl⟩ := h
    simp
  | succ n ih =>
    cases text with
    | nil => simp [matchHexDigits] at h
    | cons t ts =>
      simp only [matchHexDigits] at h
      by_cases ht : isHexDigit t = true
      · rw [if_pos ht] at h
        cases hm : matchHexDigits n ts with
        | none => simp [hm] at h
        | some r =>
          obtain ⟨hs', rest'⟩ := r
          simp only [hm, Option.map_some', Option.some.injEq, Prod.mk.injEq] at h
          obtain ⟨rfl, rfl⟩ := h
          obtain ⟨h1, h2, h3⟩ := ih ts hs' hm
          refine ⟨by rw [h1]; rfl, by simp [h2], ?_⟩
          intro c hc
          rcases List.mem_cons.mp hc with rfl | hc
          · exact ht
          · exact h3 c hc
      · rw [if_neg ht] at h
        exact Option.noConfusion h

theorem matchHexDigits_of_hex (hs rest : List Char) (h : ∀ c ∈ hs, isHexDigit c = true) :
    matchHexDigits hs.length (hs ++ rest) = some (hs, rest) := by
  induction hs with
  | nil => rfl
  | cons a hs ih =>
    have ih' := ih (fun c hc => h c (List.mem_cons_of_mem _ hc))
    rw [List.length_cons, List.cons_append, matchHexDigits, if_pos (h a (List.mem_cons_self _ _)),
      ih']
    rfl

theorem matchAddressGroup_some (ignoreCase : Bool) (text captured rest : List Char)
    (h : matchAddressGroup ignoreCase text = some (captured, rest)) :
    text = captured ++ rest ∧
      ∃ c0 c1 hs, captured = c0 :: c1 :: hs ∧
        canonicalize ignoreCase c0 = canonicalize ignoreCase '0' ∧
        canonicalize ignoreCase c1 = canonicalize ignoreCase 'x' ∧
        hs.length = 40 ∧ ∀ c ∈ hs, isHexDigit c = true := by
  unfold matchAddressGroup at h
  split at h
  · rename_i c0 c1 tl
    by_cases hc : canonicalize ignoreCase c0 = canonicalize ignoreCase '0' ∧
        canonicalize ignoreCase c1 = canonicalize ignoreCase 'x'
    · rw [if_pos hc] at h
      cases hm : matchHexDigits 40 tl with
      | none => simp [hm] at h
      | some r =>
        obtain ⟨hs, rest'⟩ := r
        simp only [hm, Option.map_some', Option.some.injEq, Prod.mk.injEq] at h
        obtain ⟨rfl, rfl⟩ := h
        obtain ⟨h1, h2, h3⟩ := matchHexDigits_some 40 tl hs rest' hm
        exact ⟨by rw [h1]; rfl, c0, c1, hs, rfl, hc.1, hc.2, h2, h3⟩
    · rw [if_neg hc] at h
      exact Option.noConfusion h
  · exact Option.noConfusion h

theorem matchLiteral_some (ignoreCase : Bool) (lit text rest : List Char)
    (h : matchLiteral ignoreCase lit text = some rest) :
    ∃ m, text = m ++ rest ∧
      m.map (canonicalize ignoreCase) = lit.map (canonicalize ignoreCase) := by
  induction lit generalizing text with
  | nil =>
    simp only [matchLiteral, Option.some.injEq] at h
    exact ⟨[], by simp [h], rfl⟩
  | cons p ps ih =>
    cases text with
    | nil => simp [matchLiteral] at h
    | cons t ts =>
      simp only [matchLiteral] at h
      by_cases hc : canonicalize ignoreCase t = canonicalize ignoreCase p
      · rw [if_pos hc] at h
        obtain ⟨m, h1, h2⟩ := ih ts h
        exact ⟨t :: m, by rw [h1]; rfl, by simp [hc, h2]⟩
      · rw [if_neg hc] at h
        exact Option.noConfusion h

theorem matchUrlAt_some (lit text captured : List Char)
    (h : matchUrlAt lit text = some captured) :
    ∃ m c1 hs post, text = m ++ ('0' :: c1 :: hs) ++ post ∧ captured = '0' :: c1 :: hs ∧
      m.map Char.toUpper = lit.map Char.toUpper ∧ c1.toUpper = 'X' ∧
      hs.length = 40 ∧ ∀ c ∈ hs, isHexDigit c = true := by
  unfold matchUrlAt at h
  cases hl : matchLiteral true lit text with
  | none => simp [hl] at h
  | some rest =>
    simp only [hl] at h
    cases hg : matchAddressGroup true rest with
    | none => simp [hg] at h
    | some r =>
      obtain ⟨cap, post⟩ := r
      simp only [hg, Option.map_some', Option.some.injEq] at h
      subst h
      obtain ⟨m, hm1, hm2⟩ := matchLiteral_some true lit text rest hl
      obtain ⟨hg1, c0, c1, hs, hcap, h0, h1, h2, h3⟩ := matchAddressGroup_some true rest _ post hg
      have hc0 : c0 = '0' := eq_zero_of_toUpper c0 h0
      subst hc0
      refine ⟨m, c1, hs, post, ?_, hcap, ?_, h1, h2, h3⟩
      · rw [hm1, hg1, hcap, List.append_assoc]
      · simpa [canonicalize] using hm2

theorem searchUrl_some (lit text captured : List Char)
    (h : searchUrl lit text = some captured) :
    ∃ pre m c1 hs post, text = pre ++ m ++ ('0' :: c1 :: hs) ++ post ∧
      captured = '0' :: c1 :: hs ∧
      m.map Char.toUpper = lit.map Char.toUpper ∧ c1.toUpper = 'X' ∧
      hs.length = 40 ∧ ∀ c ∈ hs, isHexDigit c = true := by
  induction text with
  | nil =>
    simp only [searchUrl] at h
    obtain ⟨m, c1, hs, post, h1, h2, h3⟩ := matchUrlAt_some lit [] captured h
    exact ⟨[], m, c1, hs, post, by rw [List.nil_append]; exact h1, h2, h3⟩
  | cons t ts ih =>
    simp only [searchUrl] at h
    cases hm : matchUrlAt lit (t :: ts) with
    | some cap =>
      simp only [hm, Option.some.injEq] at h
      subst h
      obtain ⟨m, c1, hs, post, h1, h2, h3⟩ := matchUrlAt_some lit (t :: ts) cap hm
      exact ⟨[], m, c1, hs, post, by simpa using h1, h2, h3⟩
    | none =>
      simp only [hm] at h
      obtain ⟨pre, m, c1, hs, post, h1, h2, h3⟩ := ih h
      exact ⟨t :: pre, m, c1, hs, post, by rw [h1]; simp, h2, h3⟩

theorem matchDirect_some (text captured : List Char) (h : matchDirect text = some captured) :
    captured = text ∧ IsAddress text := by
  unfold matchDirect at h
  split at h
  · rename_i cap hg
    simp only [Option.some.injEq] at h
    subst h
    obtain ⟨h1, c0, c1, hs, hcap, h0, hx, h2, h3⟩ := matchAddressGroup_some false text _ [] hg
    simp only [canonicalize, Bool.false_eq_true, if_false] at h0 hx
    subst h0 hx
    rw [List.append_nil] at h1
    exact ⟨h1.symm, hs, by rw [h1, hcap], h2, h3⟩
  · exact Option.noConfusion h

theorem matchDirect_of_isAddress (text : List Char) (h : IsAddress text) :
    matchDirect text = some text := by
  obtain ⟨hs, rfl, hlen, hhex⟩ := h
  have := matchHexDigits_of_hex hs [] hhex
  rw [hlen, List.append_nil] at this
  simp [matchDirect, matchAddressGroup, canonicalize, this]

theorem length_of_occursIgnoringCase (lit text : List Char)
    (h : OccursIgnoringCase lit text) : 42 ≤ text.length := by
  obtain ⟨pre, m, c1, hs, post, rfl, _, _, hlen, _⟩ := h
  simp only [List.length_append, List.length_cons, hlen]
  omega

theorem not_isAddress_of_length (cs : List Char) (h : cs.length ≠ 42) : ¬ IsAddress cs := by
  rintro ⟨hs, rfl, hlen, _⟩
  simp only [List.length_cons, hlen] at h
  omega

theorem extractContractAddress_some (text r : String)
    (h : extractContractAddress text = some r) :
    r.data <:+: (trim text).data ∧
      ∃ c1 hs, r.data = '0' :: c1 :: hs ∧ hs.length = 40 ∧ ∀ c ∈ hs, isHexDigit c = true := by
  unfold extractContractAddress at h
  simp only at h
  cases hd : matchDirect (trim text).data with
  | some cap =>
    simp only [hd, Option.some.injEq] at h
    subst h
    obtain ⟨h1, hs, h2, h3, h4⟩ := matchDirect_some _ _ hd
    exact ⟨by rw [h1], 'x', hs, by rw [h1, h2], h3, h4⟩
  | none =>
    simp only [hd] at h
    cases h1 : searchUrl dclLiteral (trim text).data with
    | some cap =>
      simp only [h1, Option.some.injEq] at h
      subst h
      obtain ⟨pre, m, c1, hs, post, ht, hc, _, _, hlen, hhex⟩ := searchUrl_some _ _ _ h1
      exact ⟨⟨pre ++ m, post, by rw [ht, hc]⟩, c1, hs, hc, hlen, hhex⟩
    | none =>
      simp only [h1] at h
      cases h2 : searchUrl polygonscanLiteral (trim text).data with
      | some cap =>
        simp only [h2, Option.some.injEq] at h
        subst h
        obtain ⟨pre, m, c1, hs, post, ht, hc, _, _, hlen, hhex⟩ := searchUrl_some _ _ _ h2
        exact ⟨⟨pre ++ m, post, by rw [ht, hc]⟩, c1, hs, hc, hlen, hhex⟩
      | none => simp [h2] at h

theorem extractContractAddress_none (text : String)
    (hd : ¬ IsAddress (trim text).data)
    (h1 : ¬ OccursIgnoringCase dclLiteral (trim text).data)
    (h2 : ¬ OccursIgnoringCase polygonscanLiteral (trim text).data) :
    extractContractAddress text = none := by
  cases h : extractContractAddress text with
  | none => rfl
  | some r =>
    exfalso
    unfold extractContractAddress at h
    simp only at h
    cases hm : matchDirect (trim text).data with
    | some cap => exact hd (matchDirect_some _ _ hm).2
    | none =>
      simp only [hm] at h
      cases hs1 : searchUrl dclLiteral (trim text).data with
      | some cap =>
        obtain ⟨pre, m, c1, hs, post, ht, _, hmm, hx, hlen, hhex⟩ := searchUrl_some _ _ _ hs1
        exact h1 ⟨pre, m, c1, hs, post, ht, hmm, hx, hlen, hhex⟩
      | none =>
        simp only [hs1] at h
        cases hs2 : searchUrl polygonscanLiteral (trim text).data with
        | some cap =>
          obtain ⟨pre, m, c1, hs, post, ht, _, hmm, hx, hlen, hhex⟩ := searchUrl_some _ _ _ hs2
          exact h2 ⟨pre, m, c1, hs, post, ht, hmm, hx, hlen, hhex⟩
        | none => simp [hs2] at h

/-- C29, as stated, fails twice. An explorer address written with the marker `0X` is
returned as it stands, so the result is not `0x` followed by 40 hexadecimal digits; and
an explorer address whose host and path are written in upper case is returned although
the text is not an address and contains neither of the two lower-case prefixes. -/
theorem extractContractAddress_counterexample :
    (extractContractAddress upperMarkerInput =
        some "0X1234567890abcdef1234567890abcdef12345678" ∧
      ¬ IsAddress "0X1234567890abcdef1234567890abcdef12345678".data) ∧
    (extractContractAddress upperHostInput =
        some "0x1234567890abcdef1234567890abcdef12345678" ∧
      ¬ IsAddress (trim upperHostInput).data ∧
      ¬ (dclLiteral <:+: (trim upperHostInput).data) ∧
      ¬ (polygonscanLiteral <:+: (trim upperHostInput).data)) := by
  refine ⟨⟨by rfl, ?_⟩, by rfl, ?_, by decide, by decide⟩
  · rintro ⟨hs, h, _⟩
    have hx : ('X' : Char) ≠ 'x' := by decide
    simp only [List.cons.injEq, true_and] at h
    exact hx h.1
  · exact not_isAddress_of_length _ (by decide)

/-- C29, amended: `extractContractAddress` returns null or a 42-character string that
occurs in the trimmed input and is made of the character `0`, one marker character and
40 hexadecimal digits; it returns the trimmed input itself when that is exactly `0x`
followed by 40 hexadecimal digits; and it returns null when the trimmed input is not
such an address and does not contain, compared without regard to letter case, one of
the two URL prefixes followed by an address. -/
theorem extractContractAddress_shape (text : String) :
    (∀ r, extractContractAddress text = some r →
      r.length = 42 ∧ r.data <:+: (trim text).data ∧
      ∃ c1 hs, r.data = '0' :: c1 :: hs ∧ hs.length = 40 ∧
        ∀ c ∈ hs, isHexDigit c = true) ∧
    (IsAddress (trim text).data → extractContractAddress text = some (trim text)) ∧
    (¬ IsAddress (trim text).data →
      ¬ OccursIgnoringCase dclLiteral (trim text).data →
      ¬ OccursIgnoringCase polygonscanLiteral (trim text).data →
      extractContractAddress text = none) := by
  refine ⟨?_, ?_, extractContractAddress_none text⟩
  · intro r h
    obtain ⟨h1, c1, hs, h2, h3, h4⟩ := extractContractAddress_some text r h
    refine ⟨?_, h1, c1, hs, h2, h3, h4⟩
    show r.data.length = 42
    rw [h2, List.length_cons, List.length_cons, h3]
  · intro h
    unfold extractContractAddress
    simp only [matchDirect_of_isAddress _ h]

/-- C29, amended, at a bare address with white space around it, and at a text that is
no address and holds no URL. -/
theorem extractContractAddress_shape_witness :
    (IsAddress (trim bareAddressInput).data ∧
      extractContractAddress bareAddressInput = some (trim bareAddressInput)) ∧
    (¬ IsAddress (trim "hello").data ∧
      ¬ OccursIgnoringCase dclLiteral (trim "hello").data ∧
      ¬ OccursIgnoringCase polygonscanLiteral (trim "hello").data ∧
      extractContractAddress "hello" = none) :=
  ⟨⟨⟨"1234567890abcdef1234567890ABCDEF12345678".data, by rfl, by rfl, by decide⟩,
      (extractContractAddress_shape bareAddressInput).2.1
        ⟨"1234567890abcdef1234567890ABCDEF12345678".data, by rfl, by rfl, by decide⟩⟩,
    not_isAddress_of_length _ (by decide),
    fun h => absurd (length_of_occursIgnoringCase _ _ h) (by decide),
    fun h => absurd (length_of_occursIgnoringCase _ _ h) (by decide),
    (extractContractAddress_shape "hello").2.2
      (not_isAddress_of_length _ (by decide))
      (fun h => absurd (length_of_occursIgnoringCase _ _ h) (by decide))
      (fun h => absurd (length_of_occursIgnoringCase _ _ h) (by decide))⟩

end HoldersApi
